import Mathlib

/-
Verification development for the BSRR proof-of-stake consensus core
(selection-point calculation, reward schedule, stake-target block
selection, header timestamp rules, deferred-reward maturation,
staker-set transaction rules and the two block-creator election
algorithms), shallowly embedded from the Go sources.
-/

set_option maxHeartbeats 1000000

/-! ## Selection-point calculation (`staking.CalcPointBigint`) -/

/-- Selection-point calculation, translated from `staking.CalcPointBigint`.
All inputs are the nonnegative `big.Int` values of the source; `big.Int`
division on nonnegative operands is floor division, modelled by `Nat`
division.  The source computes the reference block as
`int64(3600000 / (float64(period) / DefaultBlockCreationSec))` with
`DefaultBlockCreationSec = 10`; this `float64` computation is modelled by
its exact value `36000000 / period`, with which it agrees whenever the
floating computation is exact (in particular for the periods 10 and 360
exercised by the repository's tests). -/
def CalcPointBigint (prevStake addStake nowBlock stakeBlock : ℕ) (period : ℕ) : ℕ :=
  let referenceBlock := 36000000 / period
  let ratio0 := nowBlock * 100 / (referenceBlock + stakeBlock)
  let ratio := if 100 < ratio0 then 100 else ratio0
  let temp1 := prevStake / (prevStake + addStake)
  let temp2 := prevStake * temp1
  let temp3 := temp2 * ratio
  let advantage := temp3 / 100
  prevStake + advantage + addStake

/-- The selection-point formula as the specification states it:
`reference_block = floor(3600000 / (period / 10))`,
`ratio = min(100, floor(100 * now / (reference_block + stake_block)))`,
`advantage = floor(prev * floor(prev / (prev + add)) * ratio / 100)`,
`point = prev + advantage + add`. -/
def calcPointSpec (prevStake addStake nowBlock stakeBlock : ℕ) (period : ℕ) : ℕ :=
  let referenceBlock := 36000000 / period
  let ratio := min 100 (100 * nowBlock / (referenceBlock + stakeBlock))
  let advantage := prevStake * (prevStake / (prevStake + addStake)) * ratio / 100
  prevStake + advantage + addStake

/-- C4: for all nonnegative inputs with `prev_stake + add_stake > 0`,
`CalcPointBigint` computes exactly the specification's formula
`prev_stake + advantage + add_stake` with
`ratio = min(100, floor(100 * now_block / (reference_block + stake_block)))`
and `advantage = floor(prev * floor(prev / (prev + add)) * ratio / 100)`. -/
theorem calcPoint_formula (prevStake addStake nowBlock stakeBlock period : ℕ)
    (_h : 0 < prevStake + addStake) :
    CalcPointBigint prevStake addStake nowBlock stakeBlock period =
      calcPointSpec prevStake addStake nowBlock stakeBlock period := by
  simp only [CalcPointBigint, calcPointSpec]
  rw [Nat.mul_comm nowBlock 100]
  have hif : ∀ x : ℕ, (if 100 < x then 100 else x) = min 100 x := by
    intro x
    rw [min_def]
    split_ifs <;> omega
  rw [hif]

/-- Witness for `calcPoint_formula` at the test vector
`(1000, 80, 7200021, 5000, 360)`. -/
theorem calcPoint_formula_witness :
    0 < 1000 + 80 ∧
      CalcPointBigint 1000 80 7200021 5000 360 = calcPointSpec 1000 80 7200021 5000 360 :=
  ⟨by decide, calcPoint_formula 1000 80 7200021 5000 360 (by decide)⟩

/-- C3 counterexample: the round-trip identity fails.  At the test input
`(prev_stake = 1000, add_stake = 0, now_block = 7200021, stake_block = 1,
period = 360)` the point calculator returns 2000, not `prev_stake = 1000`:
the age advantage `floor(prev * floor(prev / prev) * ratio / 100)` is 1000
here (ratio saturates at 100), not 0. -/
theorem calcPoint_addZero_counterexample :
    CalcPointBigint 1000 0 7200021 1 360 = 2000 ∧
      CalcPointBigint 1000 0 7200021 1 360 ≠ 1000 := by
  constructor
  · decide
  · decide

/-- C3 amended: calling the point calculator with `add_stake = 0` returns
`prev_stake + floor(prev_stake * ratio / 100)` (the advantage term does not
vanish), and the result equals `prev_stake` exactly when
`prev_stake * ratio < 100`. -/
theorem calcPoint_addZero (prevStake nowBlock stakeBlock period : ℕ)
    (h : 0 < prevStake) :
    CalcPointBigint prevStake 0 nowBlock stakeBlock period =
      prevStake + prevStake * min 100 (100 * nowBlock / (36000000 / period + stakeBlock)) / 100 ∧
    (CalcPointBigint prevStake 0 nowBlock stakeBlock period = prevStake ↔
      prevStake * min 100 (100 * nowBlock / (36000000 / period + stakeBlock)) < 100) := by
  have hdiv : prevStake / (prevStake + 0) = 1 := by
    rw [Nat.add_zero, Nat.div_self h]
  have hif : ∀ x : ℕ, (if 100 < x then 100 else x) = min 100 x := by
    intro x
    rw [min_def]
    split_ifs <;> omega
  have hmain : CalcPointBigint prevStake 0 nowBlock stakeBlock period =
      prevStake + prevStake * min 100 (100 * nowBlock / (36000000 / period + stakeBlock)) / 100 := by
    simp only [CalcPointBigint]
    rw [Nat.mul_comm nowBlock 100, hif, hdiv, Nat.mul_one, Nat.add_zero]
  refine ⟨hmain, ?_⟩
  rw [hmain]
  constructor
  · intro heq
    have hz : prevStake * min 100 (100 * nowBlock / (36000000 / period + stakeBlock)) / 100 = 0 := by
      omega
    exact (Nat.div_eq_zero_iff (by norm_num)).1 hz
  · intro hlt
    have hz : prevStake * min 100 (100 * nowBlock / (36000000 / period + stakeBlock)) / 100 = 0 :=
      Nat.div_eq_of_lt hlt
    omega

/-- Witness for `calcPoint_addZero` at `prev_stake = 7`, `now_block = 0`
(ratio 0, so the advantage vanishes and the identity holds there). -/
theorem calcPoint_addZero_witness :
    0 < 7 ∧
      (CalcPointBigint 7 0 0 5 360 =
          7 + 7 * min 100 (100 * 0 / (36000000 / 360 + 5)) / 100 ∧
        (CalcPointBigint 7 0 0 5 360 = 7 ↔
          7 * min 100 (100 * 0 / (36000000 / 360 + 5)) < 100)) :=
  ⟨by decide, calcPoint_addZero 7 0 5 360 (by decide)⟩

/-! ## Reward schedule (`bsrr.getReward`) -/

/-- Rounding half away from zero on nonnegative rationals, modelling Go's
`math.Round` at the (always nonnegative) arguments it receives in
`getReward`. -/
def roundHalf (x : ℚ) : ℤ := ⌊x + 1 / 2⌋

/-- Floor of the base-2 logarithm on naturals, by repeated halving with
explicit fuel so that the kernel can evaluate it. -/
def nlog2Aux : ℕ → ℕ → ℕ
  | 0, _ => 0
  | fuel + 1, n => if n ≤ 1 then 0 else nlog2Aux fuel (n / 2) + 1

def nlog2 (n : ℕ) : ℕ := nlog2Aux n n

/-- Ceiling of the base-2 logarithm on naturals. -/
def nclog2 (c : ℕ) : ℕ := if c ≤ 1 then 0 else nlog2 (c - 1) + 1

/-- Round a rational to the nearest integer, ties to even: the rounding
rule of IEEE 754 binary64 arithmetic. -/
def rne (x : ℚ) : ℤ :=
  if x - ⌊x⌋ < 1 / 2 then ⌊x⌋
  else if 1 / 2 < x - ⌊x⌋ then ⌊x⌋ + 1
  else if ⌊x⌋ % 2 = 0 then ⌊x⌋ else ⌊x⌋ + 1

/-- Floor of the base-2 logarithm of a positive rational. -/
def ilog2 (x : ℚ) : ℤ :=
  if x.den ≤ x.num.toNat then (nlog2 (x.num.toNat / x.den) : ℤ)
  else -(nclog2 ((x.den + x.num.toNat - 1) / x.num.toNat) : ℤ)

/-- Binary64 rounding of a positive rational: scale into `[2^52, 2^53)`,
round the significand to nearest (ties to even), scale back. -/
def flPos (x : ℚ) : ℚ :=
  (rne (x * (2 : ℚ) ^ (52 - ilog2 x)) : ℚ) * (2 : ℚ) ^ (ilog2 x - 52)

/-- IEEE 754 binary64 rounding (round to nearest, ties to even, 53-bit
significand) as an exact map on rationals, with unbounded exponent range:
overflow and subnormal underflow are unreachable at the magnitudes
`getReward` computes with. -/
def fl (x : ℚ) : ℚ :=
  if x = 0 then 0 else if x < 0 then -flPos (-x) else flPos x

theorem nlog2Aux_spec : ∀ fuel n : ℕ, 1 ≤ n → n ≤ fuel →
    2 ^ nlog2Aux fuel n ≤ n ∧ n < 2 ^ (nlog2Aux fuel n + 1) := by
  intro fuel
  induction fuel with
  | zero => intro n h1 h2; omega
  | succ fuel ih =>
    intro n h1 h2
    rw [nlog2Aux]
    by_cases hn : n ≤ 1
    · rw [if_pos hn]
      constructor <;> simp <;> omega
    · rw [if_neg hn]
      obtain ⟨ha, hb⟩ := ih (n / 2) (by omega) (by omega)
      constructor
      · rw [pow_succ]
        omega
      · rw [pow_succ]
        omega

theorem nlog2_spec (n : ℕ) (h : 1 ≤ n) :
    2 ^ nlog2 n ≤ n ∧ n < 2 ^ (nlog2 n + 1) :=
  nlog2Aux_spec n n h (le_refl n)

theorem nclog2_spec (c : ℕ) (hc : 2 ≤ c) :
    c ≤ 2 ^ nclog2 c ∧ 2 ^ nclog2 c < 2 * c := by
  rw [nclog2, if_neg (by omega)]
  obtain ⟨ha, hb⟩ := nlog2_spec (c - 1) (by omega)
  rw [pow_succ] at hb
  rw [pow_succ]
  constructor
  · omega
  · omega

theorem rne_err (x : ℚ) : |(rne x : ℚ) - x| ≤ 1 / 2 := by
  unfold rne
  have h1 : ((⌊x⌋ : ℚ)) ≤ x := Int.floor_le x
  have h2 : x < ⌊x⌋ + 1 := Int.lt_floor_add_one x
  split_ifs with ha hb hc
  · rw [abs_le]
    constructor <;> linarith
  · push_cast
    rw [abs_le]
    constructor <;> linarith
  · have heq : x - ⌊x⌋ = 1 / 2 := le_antisymm (not_lt.mp hb) (not_lt.mp ha)
    rw [abs_le]
    constructor <;> linarith
  · have heq : x - ⌊x⌋ = 1 / 2 := le_antisymm (not_lt.mp hb) (not_lt.mp ha)
    push_cast
    rw [abs_le]
    constructor <;> linarith

theorem rne_intCast (n : ℤ) : rne (n : ℚ) = n := by
  unfold rne
  rw [Int.floor_intCast, if_pos (by norm_num)]

theorem ilog2_aux (p q : ℕ) (hp : 0 < p) (hq : 0 < q) :
    (2 : ℚ) ^ (if q ≤ p then (nlog2 (p / q) : ℤ)
        else -(nclog2 ((q + p - 1) / p) : ℤ)) ≤ (p : ℚ) / q ∧
    (p : ℚ) / q < (2 : ℚ) ^ ((if q ≤ p then (nlog2 (p / q) : ℤ)
        else -(nclog2 ((q + p - 1) / p) : ℤ)) + 1) := by
  have hqQ : (0 : ℚ) < (q : ℚ) := by exact_mod_cast hq
  by_cases h : q ≤ p
  · rw [if_pos h]
    obtain ⟨ha, hb⟩ := nlog2_spec (p / q) ((Nat.one_le_div_iff hq).mpr h)
    constructor
    · rw [zpow_natCast, le_div_iff hqQ]
      have hnat : 2 ^ nlog2 (p / q) * q ≤ p := (Nat.le_div_iff_mul_le hq).mp ha
      exact_mod_cast hnat
    · have h2 : (2 : ℚ) ^ ((nlog2 (p / q) : ℤ) + 1) =
          ((2 ^ (nlog2 (p / q) + 1) : ℕ) : ℚ) := by
        rw [show ((nlog2 (p / q) : ℤ) + 1) = ((nlog2 (p / q) + 1 : ℕ) : ℤ) from by
          push_cast; ring, zpow_natCast]
        push_cast
        ring
      rw [h2, div_lt_iff hqQ]
      have hnat : p < 2 ^ (nlog2 (p / q) + 1) * q := (Nat.div_lt_iff_lt_mul hq).mp hb
      exact_mod_cast hnat
  · rw [if_neg h]
    push_neg at h
    have hc2 : 2 ≤ (q + p - 1) / p := by
      rw [Nat.le_div_iff_mul_le hp]
      omega
    obtain ⟨hA, hB⟩ := nclog2_spec ((q + p - 1) / p) hc2
    have hup : ((q + p - 1) / p) * p ≤ q + p - 1 := Nat.div_mul_le_self _ _
    have hdown : q + p - 1 < ((q + p - 1) / p + 1) * p := by
      have hmodlt : (q + p - 1) % p < p := Nat.mod_lt _ hp
      calc q + p - 1 = p * ((q + p - 1) / p) + (q + p - 1) % p :=
            (Nat.div_add_mod _ _).symm
        _ < p * ((q + p - 1) / p) + p := Nat.add_lt_add_left hmodlt _
        _ = ((q + p - 1) / p + 1) * p := by ring
    set c := (q + p - 1) / p with hcdef
    have hk1 : 1 ≤ nclog2 c := by
      by_contra hk0
      have hke : nclog2 c = 0 := by omega
      rw [hke, pow_zero] at hA
      omega
    obtain ⟨j, hkj⟩ : ∃ j, nclog2 c = j + 1 := ⟨nclog2 c - 1, by omega⟩
    rw [hkj] at hA hB ⊢
    have hcp : q ≤ c * p := by
      rw [Nat.add_one_mul] at hdown
      omega
    have hjp : 2 ^ j * p < q := by
      rw [pow_succ] at hB
      have h1 : 2 ^ j * p ≤ (c - 1) * p := Nat.mul_le_mul_right p (by omega)
      rw [Nat.sub_mul, one_mul] at h1
      omega
    have hq2k : q ≤ 2 ^ (j + 1) * p :=
      le_trans hcp (Nat.mul_le_mul_right p hA)
    constructor
    · have hz1 : (2 : ℚ) ^ (-((j + 1 : ℕ) : ℤ)) = (1 : ℚ) / ((2 ^ (j + 1) : ℕ) : ℚ) := by
        rw [zpow_neg, zpow_natCast, one_div]
        norm_cast
      rw [hz1, div_le_div_iff (by positivity) hqQ, one_mul]
      have hcast : (q : ℚ) ≤ ((2 ^ (j + 1) * p : ℕ) : ℚ) := by exact_mod_cast hq2k
      push_cast at hcast ⊢
      linarith
    · have he : (-(((j + 1 : ℕ)) : ℤ) + 1) = -((j : ℕ) : ℤ) := by push_cast; ring
      rw [he]
      have hz2 : (2 : ℚ) ^ (-((j : ℕ) : ℤ)) = (1 : ℚ) / ((2 ^ j : ℕ) : ℚ) := by
        rw [zpow_neg, zpow_natCast, one_div]
        norm_cast
      rw [hz2, div_lt_div_iff hqQ (by positivity), one_mul]
      have hcast : ((2 ^ j * p : ℕ) : ℚ) < (q : ℚ) := by exact_mod_cast hjp
      push_cast at hcast ⊢
      linarith

theorem ilog2_spec (x : ℚ) (hx : 0 < x) :
    (2 : ℚ) ^ ilog2 x ≤ x ∧ x < (2 : ℚ) ^ (ilog2 x + 1) := by
  have hnum : 0 < x.num := Rat.num_pos.mpr hx
  have hp : 0 < x.num.toNat := by omega
  have hd : 0 < x.den := x.pos
  have hxeq : x = ((x.num.toNat : ℕ) : ℚ) / ((x.den : ℕ) : ℚ) := by
    have h1 : ((x.num.toNat : ℚ)) = ((x.num : ℤ) : ℚ) := by
      exact_mod_cast Int.toNat_of_nonneg hnum.le
    rw [h1, Rat.num_div_den]
  have haux := ilog2_aux x.num.toNat x.den hp hd
  rw [← hxeq] at haux
  rw [ilog2]
  exact haux

theorem flPos_rep (m : ℕ) (k : ℤ) (hm : 0 < m) (hm2 : m < 2 ^ 53) :
    flPos ((m : ℚ) * (2 : ℚ) ^ k) = (m : ℚ) * (2 : ℚ) ^ k := by
  have hxpos : 0 < (m : ℚ) * (2 : ℚ) ^ k := by positivity
  unfold flPos
  set e := ilog2 ((m : ℚ) * (2 : ℚ) ^ k) with he
  obtain ⟨hl, hr⟩ := ilog2_spec ((m : ℚ) * (2 : ℚ) ^ k) hxpos
  rw [← he] at hl hr
  have hub : (m : ℚ) * (2 : ℚ) ^ k < (2 : ℚ) ^ (k + 53) := by
    have hmq : (m : ℚ) < (2 : ℚ) ^ (53 : ℤ) := by
      rw [show ((53 : ℤ)) = ((53 : ℕ) : ℤ) from rfl, zpow_natCast]
      exact_mod_cast hm2
    calc (m : ℚ) * (2 : ℚ) ^ k < (2 : ℚ) ^ (53 : ℤ) * (2 : ℚ) ^ k :=
          mul_lt_mul_of_pos_right hmq (zpow_pos (by norm_num) k)
      _ = (2 : ℚ) ^ (k + 53) := by
          rw [← zpow_add₀ (by norm_num : (2 : ℚ) ≠ 0)]
          congr 1
          ring
  have heub : e ≤ k + 52 := by
    by_contra hcon
    push_neg at hcon
    have h2e : (2 : ℚ) ^ (k + 53) ≤ (2 : ℚ) ^ e := by
      apply zpow_le_zpow_right₀ (by norm_num : (1 : ℚ) ≤ 2)
      omega
    linarith
  set j := (k + 52 - e).toNat with hj
  have hjeq : k + 52 - e = (j : ℤ) := by rw [hj]; omega
  have hyeq : ((m : ℚ) * (2 : ℚ) ^ k) * (2 : ℚ) ^ (52 - e) = ((m * 2 ^ j : ℕ) : ℚ) := by
    rw [mul_assoc, ← zpow_add₀ (by norm_num : (2 : ℚ) ≠ 0)]
    rw [show (k + (52 - e)) = (j : ℤ) from by omega]
    rw [zpow_natCast]
    push_cast
    try ring
  rw [hyeq]
  have hcast : ((m * 2 ^ j : ℕ) : ℚ) = (((m * 2 ^ j : ℕ) : ℤ) : ℚ) := by
    push_cast
    try ring
  rw [hcast, rne_intCast]
  rw [← hcast, ← hyeq]
  rw [mul_assoc, ← zpow_add₀ (by norm_num : (2 : ℚ) ≠ 0)]
  rw [show ((52 - e) + (e - 52)) = (0 : ℤ) from by ring, zpow_zero, mul_one]

theorem flPos_err (x : ℚ) (hx : 0 < x) : |flPos x - x| ≤ x / 2 ^ 53 := by
  unfold flPos
  set e := ilog2 x with he
  obtain ⟨hl, hr⟩ := ilog2_spec x hx
  rw [← he] at hl hr
  have hne : (2 : ℚ) ≠ 0 := by norm_num
  have hpe : (0 : ℚ) < (2 : ℚ) ^ (e - 52) := zpow_pos (by norm_num) _
  have key : (rne (x * (2 : ℚ) ^ (52 - e)) : ℚ) * (2 : ℚ) ^ (e - 52) - x =
      ((rne (x * (2 : ℚ) ^ (52 - e)) : ℚ) - x * (2 : ℚ) ^ (52 - e)) * (2 : ℚ) ^ (e - 52) := by
    rw [sub_mul, mul_assoc, ← zpow_add₀ hne]
    rw [show ((52 - e) + (e - 52)) = (0 : ℤ) from by ring, zpow_zero, mul_one]
  rw [key, abs_mul, abs_of_pos hpe]
  have herr := rne_err (x * (2 : ℚ) ^ (52 - e))
  calc |(rne (x * (2 : ℚ) ^ (52 - e)) : ℚ) - x * (2 : ℚ) ^ (52 - e)| * (2 : ℚ) ^ (e - 52)
      ≤ (1 / 2) * (2 : ℚ) ^ (e - 52) := mul_le_mul_of_nonneg_right herr hpe.le
    _ = (2 : ℚ) ^ (e - 53) := by
        rw [show (1 : ℚ) / 2 = (2 : ℚ) ^ (-1 : ℤ) from by
          rw [zpow_neg_one]; norm_num]
        rw [← zpow_add₀ hne]
        congr 1
        ring
    _ ≤ x * (2 : ℚ) ^ (-53 : ℤ) := by
        have hsplit : (2 : ℚ) ^ (e - 53) = (2 : ℚ) ^ e * (2 : ℚ) ^ (-53 : ℤ) := by
          rw [← zpow_add₀ hne]
          congr 1
          try ring
        rw [hsplit]
        exact mul_le_mul_of_nonneg_right hl (zpow_pos (by norm_num) _).le
    _ = x / 2 ^ 53 := by
        rw [zpow_neg, div_eq_mul_inv]
        congr 1
        rw [show ((53 : ℤ)) = ((53 : ℕ) : ℤ) from rfl, zpow_natCast]

theorem fl_rep (m k : ℤ) (hm : m.natAbs < 2 ^ 53) :
    fl ((m : ℚ) * (2 : ℚ) ^ k) = (m : ℚ) * (2 : ℚ) ^ k := by
  rcases lt_trichotomy m 0 with hneg | hzero | hpos
  · have hxneg : (m : ℚ) * (2 : ℚ) ^ k < 0 :=
      mul_neg_of_neg_of_pos (by exact_mod_cast hneg) (zpow_pos (by norm_num) k)
    unfold fl
    rw [if_neg (ne_of_lt hxneg), if_pos hxneg]
    have h1 : ((m.natAbs : ℚ)) = -(m : ℚ) := by
      rw [Int.cast_natAbs, abs_of_neg hneg]
      push_cast
      ring
    have habs : -((m : ℚ) * (2 : ℚ) ^ k) = ((m.natAbs : ℕ) : ℚ) * (2 : ℚ) ^ k := by
      rw [h1]
      ring
    rw [habs, flPos_rep m.natAbs k (by omega) hm, h1]
    ring
  · subst hzero
    push_cast
    rw [zero_mul]
    unfold fl
    rw [if_pos rfl]
  · have hxpos : 0 < (m : ℚ) * (2 : ℚ) ^ k :=
      mul_pos (by exact_mod_cast hpos) (zpow_pos (by norm_num) k)
    unfold fl
    rw [if_neg (ne_of_gt hxpos), if_neg (not_lt.mpr hxpos.le)]
    have h1 : ((m : ℚ)) = ((m.natAbs : ℕ) : ℚ) := by
      rw [Int.cast_natAbs, abs_of_pos hpos]
    rw [h1, flPos_rep m.natAbs k (by omega) hm]

theorem fl_natCast (n : ℕ) (h : n < 2 ^ 53) : fl (n : ℚ) = n := by
  have := fl_rep (n : ℤ) 0 (by omega)
  simpa using this

theorem fl_intCast (m : ℤ) (h : m.natAbs < 2 ^ 53) : fl (m : ℚ) = m := by
  have := fl_rep m 0 h
  simpa using this

theorem fl_int_half (m : ℤ) (h : m.natAbs < 2 ^ 53) :
    fl ((m : ℚ) / 2) = (m : ℚ) / 2 := by
  have hrep := fl_rep m (-1) h
  rw [show ((2 : ℚ) ^ (-1 : ℤ)) = 1 / 2 from by rw [zpow_neg_one]; norm_num] at hrep
  rw [show ((m : ℚ)) / 2 = (m : ℚ) * (1 / 2) from by ring]
  exact hrep

theorem fl_err (x : ℚ) (hx : 0 < x) : |fl x - x| ≤ x / 2 ^ 53 := by
  unfold fl
  rw [if_neg (ne_of_gt hx), if_neg (not_lt.mpr hx.le)]
  exact flPos_err x hx

theorem roundStable (x : ℕ) (hx : x < 2 ^ 53) :
    roundHalf (fl ((x : ℚ) / 7370000)) = roundHalf ((x : ℚ) / 7370000) := by
  by_cases hx0 : x = 0
  · subst hx0
    rw [show (((0 : ℕ) : ℚ)) / 7370000 = 0 from by norm_num]
    rw [show fl 0 = 0 from by unfold fl; rw [if_pos rfl]]
  by_cases hmod : (2 * x) % 7370000 = 0
  · set s := 2 * x / 7370000 with hs
    have hseq : s * 7370000 = 2 * x := Nat.div_mul_cancel (Nat.dvd_of_mod_eq_zero hmod)
    have hq2 : (x : ℚ) / 7370000 = ((s : ℤ) : ℚ) / 2 := by
      have hcast : ((s : ℚ)) * 7370000 = 2 * (x : ℚ) := by exact_mod_cast hseq
      push_cast
      field_simp
      linarith
    have hsle : s ≤ x := by
      rw [hs]
      have h1 : 2 * x / 7370000 ≤ 2 * x / 2 := Nat.div_le_div_left (by norm_num) (by norm_num)
      omega
    rw [hq2, fl_int_half (s : ℤ) (by omega)]
  · have hxpos : 0 < x := Nat.pos_of_ne_zero hx0
    have hqpos : (0 : ℚ) < (x : ℚ) / 7370000 := by positivity
    have herr := fl_err _ hqpos
    have hxQ : (x : ℚ) < 2 ^ 53 := by exact_mod_cast hx
    have herr2 : |fl ((x : ℚ) / 7370000) - (x : ℚ) / 7370000| < 1 / 7370000 := by
      have hstep : ((x : ℚ) / 7370000) / 2 ^ 53 < 1 / 7370000 := by
        rw [div_lt_div_iff (by positivity) (by norm_num)]
        nlinarith
      exact lt_of_le_of_lt herr hstep
    have key : ∀ m : ℤ, 1 / 7370000 ≤ |(x : ℚ) / 7370000 + 1 / 2 - (m : ℚ)| := by
      intro m
      set d : ℤ := 2 * (x : ℤ) + 7370000 - 14740000 * m with hd
      have hdne : d ≠ 0 := by
        intro hc
        rw [hd] at hc
        have hdvd : (7370000 : ℤ) ∣ (2 * x : ℤ) := ⟨2 * m - 1, by linarith⟩
        have hdvd2 : (7370000 : ℕ) ∣ 2 * x := by exact_mod_cast hdvd
        obtain ⟨t, ht⟩ := hdvd2
        rw [ht, Nat.mul_mod_right] at hmod
        exact hmod rfl
      have heven : ∃ e : ℤ, d = 2 * e := ⟨(x : ℤ) + 3685000 - 7370000 * m, by rw [hd]; ring⟩
      obtain ⟨e, hde⟩ := heven
      have hene : e ≠ 0 := by
        intro hc
        rw [hc, mul_zero] at hde
        exact hdne hde
      have habs2 : (2 : ℤ) ≤ |d| := by
        rw [hde, abs_mul]
        have h1 : (1 : ℤ) ≤ |e| := Int.one_le_abs hene
        have h2 : |(2 : ℤ)| = 2 := by norm_num
        nlinarith
      have heq : (x : ℚ) / 7370000 + 1 / 2 - (m : ℚ) = ((d : ℤ) : ℚ) / 14740000 := by
        rw [hd]
        push_cast
        field_simp
        ring
      rw [heq]
      rw [abs_div, show |(14740000 : ℚ)| = 14740000 from by norm_num]
      rw [div_le_div_iff (by norm_num) (by norm_num)]
      have habs2Q : (2 : ℚ) ≤ |((d : ℤ) : ℚ)| := by
        rw [show |((d : ℤ) : ℚ)| = ((|d| : ℤ) : ℚ) from by push_cast; ring]
        exact_mod_cast habs2
      linarith
    rw [roundHalf, roundHalf]
    set y := (x : ℚ) / 7370000 with hy
    set n := ⌊y + 1 / 2⌋ with hn
    have h1 : (n : ℚ) ≤ y + 1 / 2 := Int.floor_le _
    have h2 : y + 1 / 2 < n + 1 := Int.lt_floor_add_one _
    have hA : (n : ℚ) + 1 / 7370000 ≤ y + 1 / 2 := by
      have hk := key n
      rw [abs_of_nonneg (by linarith)] at hk
      linarith
    have hB : y + 1 / 2 ≤ (n : ℚ) + 1 - 1 / 7370000 := by
      have hk := key (n + 1)
      push_cast at hk
      rw [abs_of_nonpos (by linarith)] at hk
      linarith
    have herr3 := abs_lt.mp herr2
    rw [Int.floor_eq_iff]
    constructor
    · have := herr3.1
      linarith
    · have := herr3.2
      linarith

/-- Block reward, translated from `bsrr.getReward`.  The source computes
with `float64`; every float operation (the conversions of `period` and
`number`, the division by `common.DefaultBlockCreationSec = 10`, the
products, the division by the section size, the subtraction and the
addition) is modelled exactly by `fl`, IEEE 754 binary64 rounding on
rationals.  `math.Round` (half away from zero, exact on its float inputs
here) is `roundHalf`, and the final `int64` conversion of the positive
`reward * 1e10` truncates toward zero, i.e. is the floor. -/
def getReward (number period rewardsStart : ℕ) : ℤ :=
  if number < rewardsStart then 0
  else
    let correctionValue : ℚ := fl (fl (period : ℚ) / 10)
    let correctedBlockNumber : ℚ := fl (fl (number : ℚ) * correctionValue)
    let addtional : ℚ := if correctedBlockNumber ≤ 3150000 then 5 else 0
    let reward : ℚ :=
      fl (fl (fl (26 - fl ((roundHalf (fl (correctedBlockNumber / 7370000)) : ℚ) * (1 / 2)))
            + addtional) * correctionValue)
    if reward ≤ 0 then 0
    else ⌊fl (reward * 10000000000)⌋ * 100000000

/-- The reward schedule as the specification states it: zero below
`rewards_start`; otherwise with `correction = period / 10` and
`N' = N * correction`, the decimal value
`(26 - round(N' / 7370000) * 0.5 + additional) * correction`
(`additional = 5` iff `N' ≤ 3150000`) computed in exact real arithmetic,
scaled to base units by truncating after multiplying by `10^10` and then
multiplying by `10^8`, with any negative result clamped to 0. -/
def rewardSpec (number period rewardsStart : ℕ) : ℤ :=
  if number < rewardsStart then 0
  else
    let correction : ℚ := (period : ℚ) / 10
    let blocks : ℚ := (number : ℚ) * correction
    let additional : ℚ := if blocks ≤ 3150000 then 5 else 0
    let value : ℚ := (26 - (roundHalf (blocks / 7370000) : ℚ) * (1 / 2) + additional) * correction
    max 0 (⌊value * 10000000000⌋ * 100000000)

/-- The zero-or-scale step written with an `if` agrees with the
specification's clamp written with `max`. -/
theorem reward_clamp_eq (v : ℚ) :
    (if v ≤ 0 then (0 : ℤ) else ⌊v * 10000000000⌋ * 100000000) =
      max 0 (⌊v * 10000000000⌋ * 100000000) := by
  split_ifs with h
  · symm
    rw [max_eq_left]
    apply mul_nonpos_of_nonpos_of_nonneg _ (by norm_num)
    calc ⌊v * 10000000000⌋ ≤ ⌊(0 : ℚ)⌋ :=
          Int.floor_le_floor (mul_nonpos_of_nonpos_of_nonneg h (by norm_num))
      _ = 0 := by norm_num
  · symm
    rw [max_eq_right]
    apply mul_nonneg _ (by norm_num)
    apply Int.floor_nonneg.2
    have hv : 0 < v := lt_of_not_le h
    positivity

theorem fl_one : fl (1 : ℚ) = 1 := by
  have := fl_natCast 1 (by norm_num)
  simpa using this

theorem getReward_period10 (number rewardsStart : ℕ) (hN : number < 2 ^ 53) :
    getReward number 10 rewardsStart = rewardSpec number 10 rewardsStart := by
  unfold getReward rewardSpec
  by_cases h0 : number < rewardsStart
  · rw [if_pos h0, if_pos h0]
  rw [if_neg h0, if_neg h0]
  simp only []
  have hcv : fl (fl ((10 : ℕ) : ℚ) / 10) = 1 := by
    rw [fl_natCast 10 (by norm_num)]
    norm_num
    exact fl_one
  have hc1 : (((10 : ℕ) : ℚ)) / 10 = 1 := by norm_num
  rw [hcv, hc1]
  simp only [mul_one]
  rw [fl_natCast number hN, fl_natCast number hN]
  rw [roundStable number hN]
  set R := roundHalf ((number : ℚ) / 7370000) with hRdef
  have hR0 : 0 ≤ R := by
    rw [hRdef, roundHalf]
    exact Int.floor_nonneg.mpr (by positivity)
  have hRub : R < 2 ^ 53 := by
    rw [hRdef, roundHalf]
    apply Int.floor_lt.mpr
    have hNq : (number : ℚ) < 2 ^ 53 := by exact_mod_cast hN
    have hdle : (number : ℚ) / 7370000 ≤ (number : ℚ) :=
      div_le_self (by positivity) (by norm_num)
    push_cast
    linarith
  rw [show ((R : ℚ)) * (1 / 2) = (R : ℚ) / 2 from by ring]
  rw [fl_int_half R (by omega)]
  have ht1 : fl (26 - (R : ℚ) / 2) = 26 - (R : ℚ) / 2 := by
    have h52 := fl_int_half (52 - R) (by omega)
    rw [show (((52 - R : ℤ)) : ℚ) / 2 = 26 - (R : ℚ) / 2 from by push_cast; ring] at h52
    exact h52
  rw [ht1]
  by_cases hadd : ((number : ℚ)) ≤ 3150000
  · rw [if_pos hadd]
    have hv5 : fl (26 - (R : ℚ) / 2 + 5) = 26 - (R : ℚ) / 2 + 5 := by
      have h62 := fl_int_half (62 - R) (by omega)
      rw [show (((62 - R : ℤ)) : ℚ) / 2 = 26 - (R : ℚ) / 2 + 5 from by
        push_cast; ring] at h62
      exact h62
    rw [hv5, hv5]
    by_cases hv : (26 : ℚ) - (R : ℚ) / 2 + 5 ≤ 0
    · rw [if_pos hv, ← reward_clamp_eq, if_pos hv]
    · rw [if_neg hv, ← reward_clamp_eq, if_neg hv]
      have hm : 0 < 62 - R := by
        by_contra hc
        push_neg at hc
        apply hv
        have hcq : ((62 - R : ℤ) : ℚ) ≤ 0 := by exact_mod_cast hc
        push_cast at hcq
        linarith
      have hveq : ((26 : ℚ) - (R : ℚ) / 2 + 5) * 10000000000 =
          (((62 - R) * 5000000000 : ℤ) : ℚ) := by
        push_cast
        ring
      rw [hveq, fl_intCast _ (by omega)]
  · rw [if_neg hadd, add_zero, ht1, ht1]
    by_cases hv : (26 : ℚ) - (R : ℚ) / 2 ≤ 0
    · rw [if_pos hv, ← reward_clamp_eq, if_pos hv]
    · rw [if_neg hv, ← reward_clamp_eq, if_neg hv]
      have hm : 0 < 52 - R := by
        by_contra hc
        push_neg at hc
        apply hv
        have hcq : ((52 - R : ℤ) : ℚ) ≤ 0 := by exact_mod_cast hc
        push_cast at hcq
        linarith
      have hveq : ((26 : ℚ) - (R : ℚ) / 2) * 10000000000 =
          (((52 - R) * 5000000000 : ℤ) : ℚ) := by
        push_cast
        ring
      rw [hveq, fl_intCast _ (by omega)]

theorem rewardSpec_start (rs : ℕ) (hrs : rs ≤ 3150000) :
    rewardSpec rs 10 rs = 31 * 10 ^ 18 := by
  have hrsq : (rs : ℚ) ≤ 3150000 := by exact_mod_cast hrs
  unfold rewardSpec
  rw [if_neg (lt_irrefl rs)]
  simp only []
  rw [show (((10 : ℕ) : ℚ)) / 10 = 1 from by norm_num]
  simp only [mul_one]
  have hround : roundHalf ((rs : ℚ) / 7370000) = 0 := by
    unfold roundHalf
    apply Int.floor_eq_zero_iff.2
    constructor
    · have h1 : (0 : ℚ) ≤ (rs : ℚ) / 7370000 := by positivity
      simpa using by linarith
    · have h2 : (rs : ℚ) / 7370000 < 1 / 2 := by
        rw [div_lt_iff (by norm_num : (0 : ℚ) < 7370000)]
        linarith
      simpa using by linarith
  rw [hround, if_pos hrsq]
  have hval : ((26 : ℚ) - ((0 : ℤ) : ℚ) * (1 / 2) + 5) * 10000000000 =
      ((310000000000 : ℤ) : ℚ) := by norm_num
  rw [hval, Int.floor_intCast]
  norm_num

set_option maxRecDepth 10000 in
/-- C5 counterexample: `getReward` evaluates the schedule in `float64`,
and the rounding is visible in the output.  At `period = 3`,
`N = 257950000` the correction value is `fl(0.3) < 3/10`, the reward
comes out as the double `6.1499999999999995`, and the truncation of
`reward * 1e10` yields `61499999999`, so the program pays
`6149999999900000000` base units while the specification's exact-real
formula pays `6150000000000000000`. -/
theorem getReward_float_counterexample :
    getReward 257950000 3 1 = 6149999999900000000 ∧
    rewardSpec 257950000 3 1 = 6150000000000000000 ∧
    getReward 257950000 3 1 ≠ rewardSpec 257950000 3 1 := by
  have h1 : getReward 257950000 3 1 = 6149999999900000000 := by
    with_unfolding_all rfl
  have h2 : rewardSpec 257950000 3 1 = 6150000000000000000 := by
    with_unfolding_all rfl
  refine ⟨h1, h2, ?_⟩
  rw [h1, h2]
  norm_num

/-- C5 (amended): the reward is 0 below `rewards_start`; at the standard
block period of 10 seconds (`correction = 1`) the float64 computation is
exact and the reward equals the specification's schedule at every height
below `2^53`; and at `N = rewards_start` inside the first-year window the
reward is `(26 - round(rewards_start / 7370000) * 0.5 + 5) * 1e18
= 31 * 10^18`.  (For other periods the float64 rounding can lower the
payout, as the counterexample shows.) -/
theorem getReward_spec :
    (∀ number period rewardsStart : ℕ, number < rewardsStart →
        getReward number period rewardsStart = 0) ∧
    (∀ number rewardsStart : ℕ, number < 2 ^ 53 →
        getReward number 10 rewardsStart = rewardSpec number 10 rewardsStart) ∧
    (∀ rewardsStart : ℕ, rewardsStart ≤ 3150000 →
        getReward rewardsStart 10 rewardsStart = 31 * 10 ^ 18) := by
  refine ⟨?_, ?_, ?_⟩
  · intro number period rewardsStart h
    unfold getReward
    rw [if_pos h]
  · intro number rewardsStart hN
    exact getReward_period10 number rewardsStart hN
  · intro rs hrs
    rw [getReward_period10 rs rs (by omega)]
    exact rewardSpec_start rs hrs

/-- Witness for `getReward_spec` at heights 3 (below the start), 500 with
period 10, and the mainnet default `rewards_start = 500`. -/
theorem getReward_spec_witness :
    ((3 : ℕ) < 7 ∧ getReward 3 10 7 = 0) ∧
    ((500 : ℕ) < 2 ^ 53 ∧ getReward 500 10 0 = rewardSpec 500 10 0) ∧
    ((500 : ℕ) ≤ 3150000 ∧ getReward 500 10 500 = 31 * 10 ^ 18) :=
  ⟨⟨by norm_num, getReward_spec.1 3 10 7 (by norm_num)⟩,
   ⟨by norm_num, getReward_spec.2.1 500 0 (by norm_num)⟩,
   ⟨by norm_num, getReward_spec.2.2 500 (by norm_num)⟩⟩


/-! ## Chain model and stake-target block selection (`bsrr.getStakeTargetBlock`) -/

/-- The header fields consumed by the modelled BSRR functions.  Hashes are
opaque identifiers, modelled as naturals. -/
structure Header where
  number : ℕ
  time : ℕ
  hash : ℕ
  parentHash : ℕ
deriving DecidableEq

/-- The chain substrate consumed through `consensus.ChainReader`:
headers by number (`GetHeaderByNumber`) and the block/state availability
check (`HasBlockAndState`). -/
structure Chain where
  byNumber : ℕ → Option Header
  hasState : ℕ → Bool

/-- `chain.GetHeader(hash, number)`: the header at the given number if its
hash matches. -/
def getHeader (c : Chain) (hash number : ℕ) : Option Header :=
  match c.byNumber number with
  | some h => if h.hash = hash then some h else none
  | none => none

/-- The backward walk of `bsrr.getAncestor`: while the current header is
non-nil, its number is positive and its number exceeds `targetNumber`,
replace it by its parent.  The walk consumes one unit of fuel per step;
callers pass the starting height plus one, which bounds the number of
steps. -/
def getAncestorWalk (c : Chain) (targetNumber : ℤ) : ℕ → Option Header → Option Header
  | _, none => none
  | 0, some t => some t
  | fuel + 1, some t =>
    if 0 < t.number ∧ targetNumber < (t.number : ℤ) then
      getAncestorWalk c targetNumber fuel (getHeader c t.parentHash (t.number - 1))
    else some t

/-- `bsrr.getAncestor`, translated from the source: walk `n` parents back
from `header` (stopping at the genesis block), and report whether the
chain has block and state for the resulting header.  The source returns
`(&types.Header{}, false)` when the walk hits a missing header; this is
modelled by `(none, false)`. -/
def getAncestor (c : Chain) (n : ℤ) (header : Header) : Option Header × Bool :=
  match getAncestorWalk c ((header.number : ℤ) - n) (header.number + 1) (some header) with
  | some t => (some t, c.hasState t.number)
  | none => (none, false)

/-- `bsrr.getStakeTargetBlock`, translated from the source: with
`d = parent.number / epoch`, descend one epoch from the parent when
`d > 1`, otherwise fetch height `0` (when `d = 0`) or height `epoch`
(when `d = 1`) by number. -/
def getStakeTargetBlock (c : Chain) (epoch : ℕ) (parent : Header) : Option Header × Bool :=
  let d := parent.number / epoch
  if 1 < d then getAncestor c (epoch : ℤ) parent
  else
    let targetNumber := if d = 0 then 0 else epoch
    match c.byNumber targetNumber with
    | some target => (some target, c.hasState targetNumber)
    | none => (none, false)

/-- Well-formed chain: every stored header carries its own height, and
every stored non-genesis header has a stored parent at the previous
height whose hash is the header's parent hash. -/
def ChainWF (c : Chain) : Prop :=
  ∀ n h, c.byNumber n = some h →
    h.number = n ∧ (0 < n → ∃ p, c.byNumber (n - 1) = some p ∧ p.hash = h.parentHash)


theorem getAncestorWalk_number (c : Chain) (hwf : ChainWF c) (targetNumber : ℤ)
    (h0 : 0 ≤ targetNumber) :
    ∀ (fuel : ℕ) (h : Header), c.byNumber h.number = some h →
      targetNumber ≤ (h.number : ℤ) → (h.number : ℤ) ≤ targetNumber + (fuel : ℤ) →
      ∃ t, getAncestorWalk c targetNumber fuel (some h) = some t ∧
        (t.number : ℤ) = targetNumber ∧ c.byNumber t.number = some t := by
  intro fuel
  induction fuel with
  | zero =>
    intro h hmem hge hle
    refine ⟨h, rfl, by push_cast at hle ⊢; omega, hmem⟩
  | succ fuel ih =>
    intro h hmem hge hle
    by_cases hcond : 0 < h.number ∧ targetNumber < (h.number : ℤ)
    · rw [getAncestorWalk, if_pos hcond]
      obtain ⟨p, hp, hphash⟩ := (hwf h.number h hmem).2 hcond.1
      have hpn : p.number = h.number - 1 := (hwf _ p hp).1
      have hstep : getHeader c h.parentHash (h.number - 1) = some p := by
        simp only [getHeader, hp]
        rw [if_pos hphash]
      rw [hstep]
      have hpmem : c.byNumber p.number = some p := by rw [hpn]; exact hp
      have h1 : 0 < h.number := hcond.1
      exact ih p hpmem (by push_cast; omega) (by push_cast at hle ⊢; omega)
    · rw [getAncestorWalk, if_neg hcond]
      refine ⟨h, rfl, by omega, hmem⟩

/-- The by-number fetch step of `getStakeTargetBlock` (the `d ≤ 1` arm):
whatever header it returns is stored at the requested height. -/
theorem stakeTarget_fetch (c : Chain) (hwf : ChainWF c) (tn : ℕ) (t : Header)
    (ht : (match c.byNumber tn with
      | some target => ((some target : Option Header), c.hasState tn)
      | none => (none, false)).1 = some t) :
    t.number = tn := by
  rcases hmem : c.byNumber tn with _ | tg <;> rw [hmem] at ht
  · exact absurd ht (by simp)
  · simp only [Option.some.injEq] at ht
    rw [← ht]
    exact (hwf tn tg hmem).1

/-- A concrete fully-available five-block chain `0 ← 1 ← 2 ← 3 ← 4` used to
exercise the target-block selection. -/
def demoChain : Chain :=
  { byNumber := fun n => if n ≤ 4 then some ⟨n, 0, n, n - 1⟩ else none,
    hasState := fun _ => true }

theorem demoChain_wf : ChainWF demoChain := by
  intro n h hmem
  simp only [demoChain] at hmem
  by_cases hn : n ≤ 4
  · rw [if_pos hn] at hmem
    injection hmem with hh
    subst hh
    refine ⟨rfl, fun hpos => ⟨⟨n - 1, 0, n - 1, n - 1 - 1⟩, ?_, rfl⟩⟩
    simp only [demoChain]
    rw [if_pos (by omega : n - 1 ≤ 4)]
  · rw [if_neg hn] at hmem
    exact Option.noConfusion hmem

/-- C1 counterexample: with `epoch = 2` on the fully available chain
`0 ← 1 ← 2 ← 3 ← 4`, the target computed for parent height 4 is the
header at height `4 - 2 = 2`, not `4 + 1 - 2 = 3` as the claim's third
branch states. -/
theorem getStakeTarget_counterexample :
    (getStakeTargetBlock demoChain 2 ⟨4, 0, 4, 3⟩).1 = some ⟨2, 0, 2, 1⟩ ∧
      ((getStakeTargetBlock demoChain 2 ⟨4, 0, 4, 3⟩).1).map Header.number ≠
        some (4 + 1 - 2) := by
  constructor
  · rfl
  · decide

/-- C1 amended: on a well-formed chain, for every parent header present in
the chain, the target header returned by `getStakeTargetBlock` sits at
height 0 when `parent.number < epoch`, at height `epoch` when
`epoch ≤ parent.number < 2 * epoch`, and at height `parent.number - epoch`
(not `parent.number + 1 - epoch`) otherwise. -/
theorem getStakeTarget_height (c : Chain) (epoch : ℕ) (parent : Header) (t : Header)
    (hwf : ChainWF c) (hparent : c.byNumber parent.number = some parent)
    (hepoch : 0 < epoch)
    (ht : (getStakeTargetBlock c epoch parent).1 = some t) :
    t.number =
      if parent.number < epoch then 0
      else if parent.number < 2 * epoch then epoch
      else parent.number - epoch := by
  unfold getStakeTargetBlock at ht
  by_cases hd : 1 < parent.number / epoch
  · have hn : 2 * epoch ≤ parent.number :=
      (Nat.le_div_iff_mul_le hepoch).1 hd
    rw [if_pos hd] at ht
    obtain ⟨t0, ht0, ht0num, _⟩ :=
      getAncestorWalk_number c hwf ((parent.number : ℤ) - epoch) (by push_cast; omega)
        (parent.number + 1) parent hparent (by push_cast; omega) (by push_cast; omega)
    unfold getAncestor at ht
    rw [ht0] at ht
    simp only [Option.some.injEq] at ht
    rw [if_neg (by omega), if_neg (by omega), ← ht]
    omega
  · rw [if_neg hd] at ht
    by_cases h0 : parent.number / epoch = 0
    · have hlt : parent.number < epoch := by
        rcases Nat.lt_or_ge parent.number epoch with hlt | hge
        · exact hlt
        · exact absurd ((Nat.one_le_div_iff hepoch).2 hge) (by simp [h0])
      have harm : (if parent.number / epoch = 0 then 0 else epoch) = 0 := by simp [h0]
      rw [harm] at ht
      rw [if_pos hlt]
      exact stakeTarget_fetch c hwf 0 t ht
    · have h1 : parent.number / epoch = 1 :=
        Nat.le_antisymm (Nat.not_lt.mp hd) (Nat.one_le_iff_ne_zero.2 h0)
      have hge : epoch ≤ parent.number :=
        (Nat.one_le_div_iff hepoch).1 (Nat.one_le_iff_ne_zero.2 h0)
      have hlt2 : parent.number < 2 * epoch := by
        by_contra hcon
        push_neg at hcon
        have h2 : 2 ≤ parent.number / epoch := (Nat.le_div_iff_mul_le hepoch).2 (by omega)
        rw [h1] at h2
        exact absurd h2 (by norm_num)
      have harm : (if parent.number / epoch = 0 then 0 else epoch) = epoch := by simp [h0]
      rw [harm] at ht
      rw [if_neg (by omega), if_pos hlt2]
      exact stakeTarget_fetch c hwf epoch t ht

/-- Witness for `getStakeTarget_height`: the chain `0 ← 1 ← 2 ← 3 ← 4`
with parent height 4 and epoch 2 yields the target height `4 - 2 = 2`. -/
theorem getStakeTarget_height_witness :
    (⟨2, 0, 2, 1⟩ : Header).number =
      if (4 : ℕ) < 2 then 0 else if (4 : ℕ) < 2 * 2 then 2 else 4 - 2 :=
  getStakeTarget_height demoChain 2 ⟨4, 0, 4, 3⟩ ⟨2, 0, 2, 1⟩
    demoChain_wf (by rfl) (by decide) (by rfl)

/-! ## Header preparation (`bsrr.Prepare`) and cascading verification
(`bsrr.verifyCascadingFields`) -/

/-- The consensus fields that `Prepare` writes into the header. -/
structure PreparedFields where
  difficulty : ℤ
  nonce : ℕ
  time : ℕ
deriving DecidableEq

/-- The consensus-field computation of `bsrr.Prepare`, translated from the
source for a resolved parent: a rank below 1 fails with
`errUnauthorizedSigner` (modelled by `none`); otherwise the difficulty and
rank are written, `header.Time` is initialised to `parent.Time + period`
and then bumped to the current wall-clock time when smaller. -/
def Prepare (parent : Header) (period now : ℕ) (diff : ℤ) (rank : ℤ) :
    Option PreparedFields :=
  if rank < 1 then none
  else
    let t0 := parent.time + period
    some { difficulty := diff, nonce := rank.toNat, time := if t0 < now then now else t0 }

/-- C8: every successfully prepared header has
`time = max(now, parent.time + period)`; in particular
`parent.time + period ≤ time`. -/
theorem prepare_time (parent : Header) (period now : ℕ) (diff : ℤ) (rank : ℤ)
    (h : PreparedFields) (hsome : Prepare parent period now diff rank = some h) :
    h.time = max now (parent.time + period) ∧ parent.time + period ≤ h.time := by
  unfold Prepare at hsome
  split_ifs at hsome with hrank
  simp only [Option.some.injEq] at hsome
  rw [← hsome]
  simp only []
  constructor
  · rw [max_def]
    split_ifs <;> omega
  · split_ifs <;> omega

/-- Witness for `prepare_time`: parent time 100, period 10, now 50 leads
to header time `110 = max 50 110`. -/
theorem prepare_time_witness :
    (⟨1234, 1, 110⟩ : PreparedFields).time = max 50 (100 + 10) ∧
      100 + 10 ≤ (⟨1234, 1, 110⟩ : PreparedFields).time :=
  prepare_time ⟨0, 100, 0, 0⟩ 10 50 1234 1 ⟨1234, 1, 110⟩ (by rfl)

/-- The closed error kinds reached by the modelled verification path. -/
inductive VerifyError where
  | unknownBlock
  | unknownAncestor
  | invalidTimestamp
deriving DecidableEq

/-- `bsrr.verifySeal`, translated from the source: it only rejects the
genesis block (`errUnknownBlock`) and accepts everything else. -/
def verifySeal (header : Header) : Option VerifyError :=
  if header.number = 0 then some VerifyError.unknownBlock else none

/-- `bsrr.verifyCascadingFields`, translated from the source for a
resolved parent lookup: genesis passes; a missing or mismatching parent is
`ErrUnknownAncestor`; `parent.time + period > header.time` is
`ErrInvalidTimestamp`; otherwise the header passes to `verifySeal`.
`none` models a nil error. -/
def verifyCascadingFields (parent : Option Header) (period : ℕ) (header : Header) :
    Option VerifyError :=
  if header.number = 0 then none
  else
    match parent with
    | none => some VerifyError.unknownAncestor
    | some p =>
      if p.number ≠ header.number - 1 ∨ p.hash ≠ header.parentHash then
        some VerifyError.unknownAncestor
      else if header.time < p.time + period then some VerifyError.invalidTimestamp
      else verifySeal header

/-- C9: for a non-genesis header with known, matching parent, verification
fails with `InvalidTimestamp` exactly when `parent.time + period >
header.time`, and a header with `parent.time + period ≤ header.time` is
not rejected at all on this path. -/
theorem verifyCascading_timestamp (p header : Header) (period : ℕ)
    (hnum : header.number ≠ 0) (hp : p.number = header.number - 1)
    (hh : p.hash = header.parentHash) :
    (verifyCascadingFields (some p) period header = some VerifyError.invalidTimestamp ↔
      header.time < p.time + period) ∧
    (p.time + period ≤ header.time → verifyCascadingFields (some p) period header = none) := by
  unfold verifyCascadingFields
  rw [if_neg hnum]
  simp only []
  rw [if_neg (by simp [hp, hh])]
  constructor
  · constructor
    · intro heq
      by_contra hcon
      rw [if_neg hcon] at heq
      unfold verifySeal at heq
      rw [if_neg hnum] at heq
      exact Option.noConfusion heq
    · intro hlt
      rw [if_pos hlt]
  · intro hle
    rw [if_neg (by omega)]
    unfold verifySeal
    rw [if_neg hnum]

/-- Witness for `verifyCascading_timestamp`: parent at time 100, period
10, header at time 105 is rejected with `InvalidTimestamp`; the same
parent with header time 110 would not be. -/
theorem verifyCascading_timestamp_witness :
    ((verifyCascadingFields (some ⟨0, 100, 7, 0⟩) 10 ⟨1, 105, 9, 7⟩ =
        some VerifyError.invalidTimestamp ↔ 105 < 100 + 10) ∧
      (100 + 10 ≤ 105 →
        verifyCascadingFields (some ⟨0, 100, 7, 0⟩) 10 ⟨1, 105, 9, 7⟩ = none)) :=
  verifyCascading_timestamp ⟨0, 100, 7, 0⟩ ⟨1, 105, 9, 7⟩ 10 (by decide) (by rfl) (by rfl)

/-! ## Deferred-reward maturation (`bsrr.accumulateRewards`) -/

/-- A pending reward: `{balance, number}` as stored per address. -/
structure Behind where
  balance : ℤ
  number : ℕ
deriving DecidableEq

/-- The slice of account state touched by `accumulateRewards`: per-address
pending-reward queue and main balance.  Modelled from the spec: the state
interface (`add_behind_balance`, `get_first_behind_balance`,
`remove_first_behind_balance`, `add_balance`) lives in the state package,
which is not part of the sources; per the spec the pending rewards form a
per-address queue accessed at its first (oldest) entry. -/
structure RewardState where
  behind : ℕ → List Behind
  balance : ℕ → ℤ

/-- `state.AddBehindBalance`: append a pending reward for `addr`. -/
def AddBehindBalance (s : RewardState) (addr number : ℕ) (amount : ℤ) : RewardState :=
  { s with behind := Function.update s.behind addr (s.behind addr ++ [⟨amount, number⟩]) }

/-- `state.AddBalance`: credit the main balance of `addr`. -/
def AddBalance (s : RewardState) (addr : ℕ) (amount : ℤ) : RewardState :=
  { s with balance := Function.update s.balance addr (s.balance addr + amount) }

/-- `state.RemoveFirstBehindBalance`: drop the oldest pending reward of
`addr`. -/
def RemoveFirstBehindBalance (s : RewardState) (addr : ℕ) : RewardState :=
  { s with behind := Function.update s.behind addr (s.behind addr).tail }

/-- One turn of the signer loop in `bsrr.accumulateRewards`, translated
from the source: fetch the first pending reward of `addr` (a missing one
is the `GetFirstBehindBalance` error, skipped); skip when
`header.Number < behind.Number + epoch` or when the balance is not
positive; otherwise credit the main balance and remove the entry. -/
def matureStep (epoch number : ℕ) (s : RewardState) (addr : ℕ) : RewardState :=
  match s.behind addr with
  | [] => s
  | b0 :: _ =>
    if number < b0.number + epoch then s
    else if b0.balance ≤ 0 then s
    else RemoveFirstBehindBalance (AddBalance s addr b0.balance) addr

/-- `bsrr.accumulateRewards`, translated from the source: post this
block's reward to the coinbase's pending queue, then run the maturation
loop over the authorised signers of the ancestor one epoch back (an
absent ancestor or signer list is the empty `signers`). -/
def accumulateRewards (epoch : ℕ) (signers : List ℕ) (number coinbase : ℕ)
    (reward : ℤ) (s : RewardState) : RewardState :=
  let s1 := AddBehindBalance s coinbase number reward
  signers.foldl (matureStep epoch number) s1

theorem matureStep_other (epoch number : ℕ) (s : RewardState) (a addr : ℕ)
    (hne : a ≠ addr) :
    (matureStep epoch number s a).balance addr = s.balance addr ∧
      (matureStep epoch number s a).behind addr = s.behind addr := by
  unfold matureStep
  rcases s.behind a with _ | ⟨b0, rest⟩
  · exact ⟨rfl, rfl⟩
  · simp only []
    split_ifs
    · exact ⟨rfl, rfl⟩
    · exact ⟨rfl, rfl⟩
    · unfold RemoveFirstBehindBalance AddBalance
      simp only []
      rw [Function.update_noteq (Ne.symm hne), Function.update_noteq (Ne.symm hne)]
      exact ⟨rfl, rfl⟩

theorem matureStep_fires (epoch number : ℕ) (s : RewardState) (addr : ℕ)
    (e : Behind) (rest : List Behind) (hhead : s.behind addr = e :: rest)
    (hmat : e.number + epoch ≤ number) (hpos : 0 < e.balance) :
    (matureStep epoch number s addr).balance addr = s.balance addr + e.balance ∧
      (matureStep epoch number s addr).behind addr = rest := by
  unfold matureStep
  rw [hhead]
  simp only []
  rw [if_neg (by omega), if_neg (by omega)]
  unfold RemoveFirstBehindBalance AddBalance
  simp only []
  constructor
  · rw [Function.update_same]
  · rw [Function.update_same, hhead, List.tail_cons]

theorem foldl_mature_preserve (epoch number addr : ℕ) :
    ∀ (sig : List ℕ) (s : RewardState), sig.count addr = 0 →
      (sig.foldl (matureStep epoch number) s).balance addr = s.balance addr ∧
        (sig.foldl (matureStep epoch number) s).behind addr = s.behind addr := by
  intro sig
  induction sig with
  | nil => intro s _; exact ⟨rfl, rfl⟩
  | cons a tl ih =>
    intro s hcount
    rw [List.count_cons] at hcount
    have hne : a ≠ addr := by
      intro heq
      rw [heq] at hcount
      simp at hcount
    have htl : tl.count addr = 0 := by
      have hx : (a == addr) = false := beq_eq_false_iff_ne.mpr hne
      simp [hx] at hcount
      exact hcount
    rw [List.foldl_cons]
    obtain ⟨hb, hq⟩ := ih (matureStep epoch number s a) htl
    obtain ⟨hb2, hq2⟩ := matureStep_other epoch number s a addr hne
    exact ⟨hb.trans hb2, hq.trans hq2⟩

theorem foldl_mature_once (epoch number addr : ℕ) (e : Behind) (rest : List Behind) :
    ∀ (sig : List ℕ) (s : RewardState), sig.count addr = 1 →
      s.behind addr = e :: rest → e.number + epoch ≤ number → 0 < e.balance →
      (sig.foldl (matureStep epoch number) s).balance addr = s.balance addr + e.balance ∧
        (sig.foldl (matureStep epoch number) s).behind addr = rest := by
  intro sig
  induction sig with
  | nil => intro s hcount; simp at hcount
  | cons a tl ih =>
    intro s hcount hhead hmat hpos
    rw [List.count_cons] at hcount
    rw [List.foldl_cons]
    by_cases ha : a = addr
    · subst ha
      have htl : tl.count a = 0 := by
        simp at hcount
        omega
      obtain ⟨hb, hq⟩ := matureStep_fires epoch number s a e rest hhead hmat hpos
      obtain ⟨hb2, hq2⟩ := foldl_mature_preserve epoch number a tl (matureStep epoch number s a) htl
      exact ⟨hb2.trans hb, hq2.trans hq⟩
    · have htl : tl.count addr = 1 := by
        have hx : (a == addr) = false := beq_eq_false_iff_ne.mpr ha
        simp [hx] at hcount
        exact hcount
      obtain ⟨hb2, hq2⟩ := matureStep_other epoch number s a addr ha
      obtain ⟨hb, hq⟩ := ih (matureStep epoch number s a) htl (hq2.trans hhead) hmat hpos
      rw [hb2] at hb
      exact ⟨hb, hq⟩

/-- C2 counterexample: the maturation loop looks only at the first entry
of an address's pending queue.  With epoch 1, at block 1, for an
authorised signer holding queue `[{0,0}, {5,0}]`, the positive entry
`{5,0}` is spendable (`0 + 1 ≤ 1`), yet nothing is credited and the entry
stays: the zero-balance entry in front is skipped without removal and
blocks the queue, contradicting the claim that at the first qualifying
block the matured positive entry is credited and removed. -/
theorem accumulateRewards_counterexample :
    (accumulateRewards 1 [0] 1 1 0
        { behind := fun a => if a = 0 then [⟨0, 0⟩, ⟨5, 0⟩] else [],
          balance := fun _ => 0 }).balance 0 = 0 ∧
      (accumulateRewards 1 [0] 1 1 0
        { behind := fun a => if a = 0 then [⟨0, 0⟩, ⟨5, 0⟩] else [],
          balance := fun _ => 0 }).behind 0 = [⟨0, 0⟩, ⟨5, 0⟩] := by
  constructor
  · rfl
  · rfl

/-- C2 amended: maturation is per-queue-head.  For an address listed
exactly once among the authorised signers whose OLDEST pending entry is
matured (`entry.number + epoch ≤ N`) and positive, `accumulateRewards`
credits the main balance with exactly that entry's balance, exactly once,
and removes exactly that entry (the coinbase posting going to a different
address).  Younger entries, or entries behind a non-positive head, are
not touched. -/
theorem accumulateRewards_maturation (epoch : ℕ) (signers : List ℕ)
    (number coinbase : ℕ) (reward : ℤ) (s : RewardState) (addr : ℕ)
    (e : Behind) (rest : List Behind)
    (hsig : signers.count addr = 1) (hcb : coinbase ≠ addr)
    (hhead : s.behind addr = e :: rest)
    (hmat : e.number + epoch ≤ number) (hpos : 0 < e.balance) :
    (accumulateRewards epoch signers number coinbase reward s).balance addr =
        s.balance addr + e.balance ∧
      (accumulateRewards epoch signers number coinbase reward s).behind addr = rest := by
  unfold accumulateRewards
  simp only []
  have h1 : (AddBehindBalance s coinbase number reward).behind addr = e :: rest := by
    unfold AddBehindBalance
    simp only []
    rw [Function.update_noteq (Ne.symm hcb)]
    exact hhead
  have h2 : (AddBehindBalance s coinbase number reward).balance addr = s.balance addr := rfl
  obtain ⟨hb, hq⟩ :=
    foldl_mature_once epoch number addr e rest signers
      (AddBehindBalance s coinbase number reward) hsig h1 hmat hpos
  rw [h2] at hb
  exact ⟨hb, hq⟩

/-- Witness for `accumulateRewards_maturation`: one signer with a single
matured entry of balance 5 on a main balance of 2 ends with balance 7 and
an empty queue. -/
theorem accumulateRewards_maturation_witness :
    ([0] : List ℕ).count 0 = 1 ∧ (1 : ℕ) ≠ 0 ∧
      ({ behind := fun a => if a = 0 then [⟨5, 0⟩] else [],
          balance := fun _ => 2 : RewardState }).behind 0 = [⟨5, 0⟩] ∧
      (0 : ℕ) + 1 ≤ 1 ∧ (0 : ℤ) < 5 ∧
      ((accumulateRewards 1 [0] 1 1 7
          { behind := fun a => if a = 0 then [⟨5, 0⟩] else [],
            balance := fun _ => 2 }).balance 0 = 2 + 5 ∧
        (accumulateRewards 1 [0] 1 1 7
          { behind := fun a => if a = 0 then [⟨5, 0⟩] else [],
            balance := fun _ => 2 }).behind 0 = []) :=
  ⟨by decide, by decide, by rfl, by decide, by decide,
    accumulateRewards_maturation 1 [0] 1 1 7
      { behind := fun a => if a = 0 then [⟨5, 0⟩] else [], balance := fun _ => 2 }
      0 ⟨5, 0⟩ [] (by decide) (by decide) (by rfl) (by decide) (by decide)⟩

/-! ## Staker-set transaction rules (`bsrr.setStakersWithTxs`) -/

/-- Transaction job-wallet tags.  Modelled from the spec: the `JobWallet`
constants `Main` and `Stake` live in the types package, whose definition
is not among the sources. -/
inductive JobWallet where
  | main
  | stake
deriving DecidableEq

/-- The slice of a transaction message inspected by `setStakersWithTxs`:
sender, base wallet and target wallet. -/
structure StakeTx where
  sender : ℕ
  base : JobWallet
  target : JobWallet
deriving DecidableEq

/-- Insert-or-overwrite into the `stkChanged` map, keeping the position of
an existing key (Go map assignment). -/
def upsert (m : List (ℕ × Bool)) (k : ℕ) (v : Bool) : List (ℕ × Bool) :=
  if m.any (fun p => p.1 = k) then m.map (fun p => if p.1 = k then (k, v) else p)
  else m ++ [(k, v)]

/-- The transaction scan of `bsrr.setStakersWithTxs`, translated from the
source: `(Main, Main)` is skipped; past BIP1 a `(Stake, Main)` transaction
marks its sender for removal; a `(Main, Stake)` transaction marks its
sender for addition; later transactions from the same sender overwrite the
mark. -/
def stkChangedStep (bip1 : Bool) (m : List (ℕ × Bool)) (tx : StakeTx) : List (ℕ × Bool) :=
  if tx.base = JobWallet.main ∧ tx.target = JobWallet.main then m
  else if bip1 = true ∧ tx.base = JobWallet.stake ∧ tx.target = JobWallet.main then
    upsert m tx.sender false
  else if tx.base = JobWallet.main ∧ tx.target = JobWallet.stake then
    upsert m tx.sender true
  else m

def stkChanged (bip1 : Bool) (txs : List StakeTx) : List (ℕ × Bool) :=
  txs.foldl (stkChangedStep bip1) []

/-- The mark application of `bsrr.setStakersWithTxs`: `stks.Put` for an
addition mark, `stks.Remove` for a removal mark.  The Go map iteration
order is unspecified; the marks are applied in insertion order, which
yields the same set because the keys are distinct. -/
def applyChanged (stks : Finset ℕ) (m : List (ℕ × Bool)) : Finset ℕ :=
  m.foldl (fun st p => if p.2 then insert p.1 st else st.erase p.1) stks

/-- The staker-set effect of `bsrr.setStakersWithTxs` (the state-writing
branch is orthogonal to the set and not modelled): scan the transactions
into `stkChanged`, then put or remove each marked sender. -/
def setStakersWithTxs (bip1 : Bool) (stks : Finset ℕ) (txs : List StakeTx) : Finset ℕ :=
  applyChanged stks (stkChanged bip1 txs)

/-- The per-transaction rule exactly as the claim states it: a
`(Main, Stake)` transaction adds its sender; a `(Stake, Main)` transaction
removes its sender only at or past BIP1; everything else (in particular
`(Main, Main)`) leaves the set unchanged. -/
def stakerTxStep (bip1 : Bool) (stks : Finset ℕ) (tx : StakeTx) : Finset ℕ :=
  if tx.base = JobWallet.main ∧ tx.target = JobWallet.stake then insert tx.sender stks
  else if tx.base = JobWallet.stake ∧ tx.target = JobWallet.main ∧ bip1 = true then
    stks.erase tx.sender
  else stks

/-- First-match lookup in the `stkChanged` map. -/
def lookupB (m : List (ℕ × Bool)) (k : ℕ) : Option Bool :=
  (m.find? (fun p => p.1 = k)).map Prod.snd

theorem lookupB_nil (k : ℕ) : lookupB [] k = none := rfl

theorem lookupB_cons (p : ℕ × Bool) (m : List (ℕ × Bool)) (k : ℕ) :
    lookupB (p :: m) k = if p.1 = k then some p.2 else lookupB m k := by
  unfold lookupB
  rw [List.find?_cons]
  by_cases h : p.1 = k
  · rw [if_pos h]
    simp [h]
  · rw [if_neg h]
    simp [h]

theorem lookupB_map_self (m : List (ℕ × Bool)) (k : ℕ) (v : Bool)
    (hany : m.any (fun p => p.1 = k) = true) :
    lookupB (m.map (fun p => if p.1 = k then (k, v) else p)) k = some v := by
  induction m with
  | nil => simp at hany
  | cons p tl ih =>
    rw [List.map_cons, lookupB_cons]
    by_cases h : p.1 = k
    · rw [if_pos h]
      simp
    · rw [if_neg h]
      simp only [if_neg h]
      apply ih
      simp only [List.any_cons] at hany
      rcases Bool.or_eq_true_iff.mp hany with h1 | h2
      · exact absurd (by simpa using h1) h
      · exact h2

theorem lookupB_append_single_self (m : List (ℕ × Bool)) (k : ℕ) (v : Bool)
    (hnone : m.any (fun p => p.1 = k) = false) :
    lookupB (m ++ [(k, v)]) k = some v := by
  induction m with
  | nil => rw [List.nil_append, lookupB_cons, if_pos rfl]
  | cons p tl ih =>
    rw [List.cons_append, lookupB_cons]
    simp only [List.any_cons, Bool.or_eq_false_iff] at hnone
    rw [if_neg (by simpa using hnone.1)]
    exact ih hnone.2

theorem lookupB_map_other (m : List (ℕ × Bool)) (k k' : ℕ) (v : Bool) (hne : k' ≠ k) :
    lookupB (m.map (fun p => if p.1 = k then (k, v) else p)) k' = lookupB m k' := by
  induction m with
  | nil => rfl
  | cons p tl ih =>
    rw [List.map_cons, lookupB_cons, lookupB_cons]
    by_cases h : p.1 = k
    · rw [if_pos h]
      simp only []
      rw [if_neg (fun hc => hne hc.symm), if_neg (fun hc => hne (h ▸ hc).symm)]
      exact ih
    · rw [if_neg h]
      by_cases h2 : p.1 = k'
      · rw [if_pos h2, if_pos h2]
      · rw [if_neg h2, if_neg h2]
        exact ih

theorem lookupB_append_single_other (m : List (ℕ × Bool)) (k k' : ℕ) (v : Bool)
    (hne : k' ≠ k) :
    lookupB (m ++ [(k, v)]) k' = lookupB m k' := by
  induction m with
  | nil =>
    rw [List.nil_append, lookupB_cons, if_neg (fun hc => hne hc.symm), lookupB_nil]
  | cons p tl ih =>
    rw [List.cons_append, lookupB_cons, lookupB_cons]
    by_cases h2 : p.1 = k'
    · rw [if_pos h2, if_pos h2]
    · rw [if_neg h2, if_neg h2]
      exact ih

theorem lookupB_upsert_self (m : List (ℕ × Bool)) (k : ℕ) (v : Bool) :
    lookupB (upsert m k v) k = some v := by
  unfold upsert
  split_ifs with hany
  · exact lookupB_map_self m k v hany
  · exact lookupB_append_single_self m k v (Bool.not_eq_true _ ▸ Bool.of_not_eq_true hany)

theorem lookupB_upsert_other (m : List (ℕ × Bool)) (k k' : ℕ) (v : Bool) (hne : k' ≠ k) :
    lookupB (upsert m k v) k' = lookupB m k' := by
  unfold upsert
  split_ifs with hany
  · exact lookupB_map_other m k k' v hne
  · exact lookupB_append_single_other m k k' v hne

theorem upsert_keys_nodup (m : List (ℕ × Bool)) (k : ℕ) (v : Bool)
    (h : (m.map Prod.fst).Nodup) : ((upsert m k v).map Prod.fst).Nodup := by
  unfold upsert
  split_ifs with hany
  · have hkeys : (m.map (fun p => if p.1 = k then (k, v) else p)).map Prod.fst =
        m.map Prod.fst := by
      rw [List.map_map]
      apply List.map_congr_left
      intro p _
      simp only [Function.comp]
      split_ifs with hp
      · exact hp.symm
      · rfl
    rw [hkeys]
    exact h
  · have hmap : ((m ++ [(k, v)]).map Prod.fst) = (m.map Prod.fst).concat k := by
      simp [List.concat_eq_append]
    rw [hmap]
    refine List.Nodup.concat ?_ h
    intro hc
    apply hany
    rcases List.mem_map.mp hc with ⟨p, hp, hpk⟩
    rw [List.any_eq_true]
    exact ⟨p, hp, by simp [hpk]⟩

theorem stkChangedStep_keys_nodup (bip1 : Bool) (m : List (ℕ × Bool)) (tx : StakeTx)
    (h : (m.map Prod.fst).Nodup) :
    ((stkChangedStep bip1 m tx).map Prod.fst).Nodup := by
  unfold stkChangedStep
  split_ifs
  · exact h
  · exact upsert_keys_nodup m tx.sender false h
  · exact upsert_keys_nodup m tx.sender true h
  · exact h

theorem stkChanged_keys_nodup (bip1 : Bool) (txs : List StakeTx) :
    ((stkChanged bip1 txs).map Prod.fst).Nodup := by
  unfold stkChanged
  suffices h : ∀ (l : List StakeTx) (m : List (ℕ × Bool)), (m.map Prod.fst).Nodup →
      ((l.foldl (stkChangedStep bip1) m).map Prod.fst).Nodup by
    exact h txs [] (by simp)
  intro l
  induction l with
  | nil => intro m hm; exact hm
  | cons t tl ih =>
    intro m hm
    rw [List.foldl_cons]
    exact ih _ (stkChangedStep_keys_nodup bip1 m t hm)

/-- The last staking action a transaction list performs for `addr`:
`some true` when the last relevant transaction stakes up, `some false`
when it unstakes (under BIP1), `none` when no transaction touches the
address.  This is the claim's per-transaction reading of the rules. -/
def lastActionStep (bip1 : Bool) (addr : ℕ) (acc : Option Bool) (tx : StakeTx) :
    Option Bool :=
  if tx.base = JobWallet.main ∧ tx.target = JobWallet.main then acc
  else if bip1 = true ∧ tx.base = JobWallet.stake ∧ tx.target = JobWallet.main then
    (if tx.sender = addr then some false else acc)
  else if tx.base = JobWallet.main ∧ tx.target = JobWallet.stake then
    (if tx.sender = addr then some true else acc)
  else acc

def lastAction (bip1 : Bool) (addr : ℕ) (txs : List StakeTx) : Option Bool :=
  txs.foldl (lastActionStep bip1 addr) none

theorem lookupB_stkChangedStep (bip1 : Bool) (m : List (ℕ × Bool)) (tx : StakeTx)
    (addr : ℕ) :
    lookupB (stkChangedStep bip1 m tx) addr = lastActionStep bip1 addr (lookupB m addr) tx := by
  unfold stkChangedStep lastActionStep
  by_cases h1 : tx.base = JobWallet.main ∧ tx.target = JobWallet.main
  · rw [if_pos h1, if_pos h1]
  · rw [if_neg h1, if_neg h1]
    by_cases h2 : bip1 = true ∧ tx.base = JobWallet.stake ∧ tx.target = JobWallet.main
    · rw [if_pos h2, if_pos h2]
      by_cases hs : tx.sender = addr
      · rw [if_pos hs, hs, lookupB_upsert_self]
      · rw [if_neg hs, lookupB_upsert_other m tx.sender addr false (fun hc => hs hc.symm)]
    · rw [if_neg h2, if_neg h2]
      by_cases h3 : tx.base = JobWallet.main ∧ tx.target = JobWallet.stake
      · rw [if_pos h3, if_pos h3]
        by_cases hs : tx.sender = addr
        · rw [if_pos hs, hs, lookupB_upsert_self]
        · rw [if_neg hs, lookupB_upsert_other m tx.sender addr true (fun hc => hs hc.symm)]
      · rw [if_neg h3, if_neg h3]

theorem lookupB_stkChanged (bip1 : Bool) (txs : List StakeTx) (addr : ℕ) :
    lookupB (stkChanged bip1 txs) addr = lastAction bip1 addr txs := by
  unfold stkChanged lastAction
  suffices h : ∀ (l : List StakeTx) (m : List (ℕ × Bool)),
      lookupB (l.foldl (stkChangedStep bip1) m) addr =
        l.foldl (lastActionStep bip1 addr) (lookupB m addr) by
    rw [h txs [], lookupB_nil]
  intro l
  induction l with
  | nil => intro m; rfl
  | cons t tl ih =>
    intro m
    rw [List.foldl_cons, List.foldl_cons, ih, lookupB_stkChangedStep]

theorem lookupB_eq_none_of_not_mem (m : List (ℕ × Bool)) (x : ℕ)
    (hx : x ∉ m.map Prod.fst) : lookupB m x = none := by
  induction m with
  | nil => rfl
  | cons p tl ih =>
    rw [lookupB_cons]
    rw [List.map_cons, List.mem_cons, not_or] at hx
    rw [if_neg (fun hc => hx.1 hc.symm)]
    exact ih hx.2

/-- The membership result of an `Option Bool` staking mark over a fallback
membership proposition. -/
def memAfter (acc : Option Bool) (P : Prop) : Prop :=
  match acc with
  | some b => b = true
  | none => P

theorem mem_applyChanged (x : ℕ) :
    ∀ (m : List (ℕ × Bool)) (stks : Finset ℕ), (m.map Prod.fst).Nodup →
      (x ∈ applyChanged stks m ↔ memAfter (lookupB m x) (x ∈ stks)) := by
  intro m
  induction m with
  | nil => intro stks _; exact Iff.rfl
  | cons p tl ih =>
    intro stks hnd
    rw [List.map_cons] at hnd
    have hnd2 := (List.nodup_cons.mp hnd).2
    have hp1 := (List.nodup_cons.mp hnd).1
    unfold applyChanged
    rw [List.foldl_cons]
    have hstep : (tl.foldl (fun st q => if q.2 then insert q.1 st else st.erase q.1)
        (if p.2 then insert p.1 stks else stks.erase p.1)) =
        applyChanged (if p.2 then insert p.1 stks else stks.erase p.1) tl := rfl
    rw [hstep, ih _ hnd2, lookupB_cons]
    by_cases hpx : p.1 = x
    · have hnone : lookupB tl x = none := by
        apply lookupB_eq_none_of_not_mem
        rw [← hpx]
        exact hp1
      rw [if_pos hpx, hnone]
      simp only [memAfter]
      cases hb : p.2 with
      | false =>
        rw [if_neg Bool.false_ne_true]
        simp [Finset.mem_erase, hpx]
      | true =>
        rw [if_pos rfl]
        simp [Finset.mem_insert, hpx]
    · rw [if_neg hpx]
      have hsame : (x ∈ (if p.2 = true then insert p.1 stks else stks.erase p.1)) ↔
          x ∈ stks := by
        split_ifs
        · rw [Finset.mem_insert, or_iff_right (show ¬x = p.1 from fun hc => hpx hc.symm)]
        · rw [Finset.mem_erase, and_iff_right (show x ≠ p.1 from fun hc => hpx hc.symm)]
      rcases lookupB tl x with _ | b
      · simp only [memAfter]
        exact hsame
      · simp only [memAfter]

theorem mem_foldl_stakerTxStep (bip1 : Bool) (x : ℕ) :
    ∀ (txs : List StakeTx) (stks : Finset ℕ) (acc : Option Bool) (P : Prop),
      (x ∈ stks ↔ memAfter acc P) →
      (x ∈ txs.foldl (stakerTxStep bip1) stks ↔
        memAfter (txs.foldl (lastActionStep bip1 x) acc) P) := by
  intro txs
  induction txs with
  | nil => intro stks acc P h; exact h
  | cons t tl ih =>
    intro stks acc P h
    rw [List.foldl_cons, List.foldl_cons]
    apply ih
    obtain ⟨sender, base, target⟩ := t
    cases base <;> cases target
    · -- (Main, Main): no effect, no mark
      simp only [stakerTxStep, lastActionStep]
      rw [if_neg (by simp), if_neg (by simp), if_pos (by simp)]
      exact h
    · -- (Main, Stake): add sender
      simp only [stakerTxStep, lastActionStep]
      rw [if_pos (by simp), if_neg (by simp), if_neg (by simp), if_pos (by simp)]
      by_cases hs : sender = x
      · subst hs
        rw [if_pos rfl]
        simp only [memAfter]
        simp [Finset.mem_insert]
      · rw [if_neg hs]
        have hmem : x ∈ insert sender stks ↔ x ∈ stks := by
          rw [Finset.mem_insert, or_iff_right (fun hc => hs hc.symm)]
        rw [hmem]
        exact h
    · -- (Stake, Main): remove sender, only under BIP1
      simp only [stakerTxStep, lastActionStep]
      by_cases hb : bip1 = true
      · rw [if_neg (by simp), if_pos (by simp [hb]), if_neg (by simp), if_pos (by simp [hb])]
        by_cases hs : sender = x
        · subst hs
          rw [if_pos rfl]
          simp only [memAfter]
          simp [Finset.mem_erase]
        · rw [if_neg hs]
          have hmem : x ∈ stks.erase sender ↔ x ∈ stks := by
            rw [Finset.mem_erase, and_iff_right (show x ≠ sender from fun hc => hs hc.symm)]
          rw [hmem]
          exact h
      · rw [if_neg (by simp), if_neg (by simp [hb]), if_neg (by simp), if_neg (by simp [hb]),
          if_neg (by simp)]
        exact h
    · -- (Stake, Stake): no effect, no mark
      simp only [stakerTxStep, lastActionStep]
      rw [if_neg (by simp), if_neg (by simp), if_neg (by simp), if_neg (by simp),
        if_neg (by simp)]
      exact h

/-- C7: applying a block's transactions to the staker set through the
`stkChanged` mark map is exactly the per-transaction rule of the claim,
applied sequentially: `(Main, Stake)` adds the sender, `(Stake, Main)`
removes the sender only at or past BIP1 (no effect before), and
`(Main, Main)` (like every other pair) leaves the set unchanged. -/
theorem setStakers_txRules (bip1 : Bool) (stks : Finset ℕ) (txs : List StakeTx) :
    setStakersWithTxs bip1 stks txs = txs.foldl (stakerTxStep bip1) stks := by
  apply Finset.ext
  intro x
  unfold setStakersWithTxs
  rw [mem_applyChanged x (stkChanged bip1 txs) stks (stkChanged_keys_nodup bip1 txs)]
  rw [lookupB_stkChanged]
  rw [mem_foldl_stakerTxStep bip1 x txs stks none (x ∈ stks) Iff.rfl]
  rfl

/-! ## Block-creator election (`selection.Candidates`) -/

/-- A registered candidate: address, selection point, and cumulative
point (`val`, assigned at insertion: the running total). -/
structure Candidate where
  address : ℕ
  point : ℕ
  val : ℕ
deriving DecidableEq

/-- One vote result: score and rank. -/
structure VoteResult where
  score : ℤ
  rank : ℕ
deriving DecidableEq

def MaxMiner : ℕ := 10000

def maxElectScore : ℤ := 5000000

def minElectScore : ℤ := 10000

/-- `result[account] = VoteResult{...}`: Go map assignment over the
`VoteResults` map, modelled as an association list that overwrites an
existing key in place. -/
def putResult (rs : List (ℕ × VoteResult)) (a : ℕ) (v : VoteResult) :
    List (ℕ × VoteResult) :=
  if rs.any (fun p => p.1 = a) then rs.map (fun p => if p.1 = a then (a, v) else p)
  else rs ++ [(a, v)]

/-- The `val` of the candidate at index `i` (0 outside the array; every
in-bounds access of the source is modelled with an explicit bounds
check). -/
def valAt (sels : List Candidate) (i : ℕ) : ℕ :=
  ((sels.get? i).map Candidate.val).getD 0

/-- The address of the candidate at index `i`. -/
def addrAt (sels : List Candidate) (i : ℕ) : ℕ :=
  ((sels.get? i).map Candidate.address).getD 0

/-- The cumulative-point invariant of `Candidates.Add`: each `val` is the
predecessor's `val` plus the candidate's own point, starting from
`base`. -/
def valsOk : List Candidate → ℕ → Prop
  | [], _ => True
  | c :: rest, base => c.val = base + c.point ∧ valsOk rest c.val

/-- The binary search of `selectBIP3BlockCreator`'s inner loop, translated
from the source (`start`/`end` bounds, inclusive candidate ranges
`[val_{mid-1}, val_mid]`, `end = mid - 1` / `start = mid + 1` narrowing).
The `for {}` loop is modelled with fuel; an out-of-bounds candidate access
(a Go panic) is `none`. -/
def searchBIP3 (sels : List Candidate) (elected : ℕ) :
    ℕ → ℕ → ℕ → Option ℕ
  | 0, _, _ => none
  | fuel + 1, start, stop =>
    let mid := (start + stop) / 2
    match sels.get? mid with
    | none => none
    | some c =>
      match (if 0 < mid then (sels.get? (mid - 1)).map Candidate.val else some 0) with
      | none => none
      | some a =>
        if a ≤ elected ∧ elected ≤ c.val then some mid
        else
          searchBIP3 sels elected fuel
            (if c.val < elected then mid + 1 else start)
            (if elected < a then mid - 1 else stop)

/-- Candidate removal in `selectBIP3BlockCreator`, translated from the
source: shift the suffix left while subtracting the removed point from its
cumulative `val`s, then truncate.  The source subtracts on `uint64`;
under the prefix-sum invariant the subtraction never underflows, so
truncated subtraction coincides with it. -/
def removeChosen (sels : List Candidate) (chosen : ℕ) (p : ℕ) : List Candidate :=
  sels.take chosen ++ (sels.drop (chosen + 1)).map (fun c => { c with val := c.val - p })

/-- The election loop of `selectBIP3BlockCreator`, translated from the
source.  The seeded PRNG (`math/rand` after `rand.Seed(GetSeed(...))`,
not part of the sources) is modelled from the spec as a deterministic
stream of draws; `rand.Int63n(total)` is the next stream value reduced
mod `total`, and panics (`Int63n` on a non-positive bound, out-of-bounds
indexing) are `none`.  One unit of fuel is spent per removal, so
`sels.length` fuel runs the loop to completion. -/
def selectLoopBIP3 (stream : ℕ → ℕ) (gap : ℤ) :
    ℕ → List Candidate → ℕ → ℕ → ℤ → ℕ → List (ℕ × VoteResult) →
    Option (List (ℕ × VoteResult))
  | 0, sels, _, _, _, _, acc => if sels.isEmpty then some acc else none
  | fuel + 1, sels, total, rank, score, idx, acc =>
    if sels.isEmpty then some acc
    else if total = 0 then none
    else
      let elected := stream idx % total
      match searchBIP3 sels elected (sels.length + 1) 0 (sels.length - 1) with
      | none => none
      | some chosen =>
        match sels.get? chosen with
        | none => none
        | some out =>
          selectLoopBIP3 stream gap fuel (removeChosen sels chosen out.point)
            (total - out.point) (rank + 1) (score - gap) (idx + 1)
            (putResult acc out.address { score := score, rank := rank })

/-- `Candidates.selectBIP3BlockCreator`, translated from the source: the
score gap is `(maxElectScore - minElectScore) / candidateCount` (an
integer division by zero — a Go panic — when the candidate list is
empty, modelled by `none`), the first rank is 1, the first score is
`maxElectScore`, and the loop runs until the candidate list is empty. -/
def selectBIP3BlockCreator (stream : ℕ → ℕ) (sels : List Candidate) (total : ℕ) :
    Option (List (ℕ × VoteResult)) :=
  if sels.length = 0 then none
  else
    selectLoopBIP3 stream ((maxElectScore - minElectScore) / (sels.length : ℤ))
      sels.length sels total 1 maxElectScore 0 []

theorem sum_take_mono (l : List ℕ) : ∀ i j, i ≤ j → (l.take i).sum ≤ (l.take j).sum := by
  induction l with
  | nil => intro i j _; simp
  | cons x tl ih =>
    intro i j hij
    cases i with
    | zero => simp
    | succ i =>
      cases j with
      | zero => omega
      | succ j =>
        rw [List.take_succ_cons, List.take_succ_cons, List.sum_cons, List.sum_cons]
        exact Nat.add_le_add_left (ih i j (by omega)) x

theorem valsOk_valAt (sels : List Candidate) (base : ℕ) (h : valsOk sels base) :
    ∀ i, i < sels.length →
      valAt sels i = base + ((sels.map Candidate.point).take (i + 1)).sum := by
  induction sels generalizing base with
  | nil => intro i hi; simp at hi
  | cons c rest ih =>
    intro i hi
    cases i with
    | zero =>
      simp only [valAt, List.get?_cons_zero, Option.map_some', Option.getD_some,
        List.map_cons, List.take_succ_cons, List.take_zero, List.sum_cons, List.sum_nil]
      have h1 := h.1
      omega
    | succ i =>
      have hstep : valAt (c :: rest) (i + 1) = valAt rest i := rfl
      rw [hstep, ih c.val h.2 i (by simpa using hi)]
      rw [List.map_cons, List.take_succ_cons, List.sum_cons]
      have h1 := h.1
      omega

theorem valAt_mono (sels : List Candidate) (base : ℕ) (h : valsOk sels base) :
    ∀ i j, i ≤ j → j < sels.length → valAt sels i ≤ valAt sels j := by
  intro i j hij hj
  rw [valsOk_valAt sels base h i (by omega), valsOk_valAt sels base h j hj]
  have := sum_take_mono (sels.map Candidate.point) (i + 1) (j + 1) (by omega)
  omega

theorem valsOk_last (sels : List Candidate) (h : valsOk sels 0) (hne : sels ≠ []) :
    valAt sels (sels.length - 1) = (sels.map Candidate.point).sum := by
  have hlen : 0 < sels.length := List.length_pos.mpr hne
  rw [valsOk_valAt sels 0 h (sels.length - 1) (by omega)]
  have hfull : sels.length - 1 + 1 = (sels.map Candidate.point).length := by
    rw [List.length_map]
    omega
  rw [hfull, List.take_length]
  omega

theorem exists_ans (sels : List Candidate) (elected : ℕ) (hne : sels ≠ [])
    (hle : elected ≤ valAt sels (sels.length - 1)) :
    ∃ ans, ans < sels.length ∧
      (if ans = 0 then 0 else valAt sels (ans - 1)) ≤ elected ∧
      elected ≤ valAt sels ans := by
  have hlen : 0 < sels.length := List.length_pos.mpr hne
  have hex : ∃ i, elected ≤ valAt sels i := ⟨sels.length - 1, hle⟩
  refine ⟨Nat.find hex, ?_, ?_, Nat.find_spec hex⟩
  · have := Nat.find_min' hex hle
    omega
  · by_cases h0 : Nat.find hex = 0
    · rw [if_pos h0]
      omega
    · rw [if_neg h0]
      have := Nat.find_min hex (show Nat.find hex - 1 < Nat.find hex by omega)
      omega

theorem searchBIP3_success (sels : List Candidate) (elected : ℕ)
    (hmono : ∀ i j, i ≤ j → j < sels.length → valAt sels i ≤ valAt sels j) :
    ∀ (fuel start stop ans : ℕ), ans < sels.length → start ≤ ans → ans ≤ stop →
      stop < sels.length →
      (if ans = 0 then 0 else valAt sels (ans - 1)) ≤ elected →
      elected ≤ valAt sels ans →
      stop + 1 - start ≤ fuel →
      ∃ i, searchBIP3 sels elected fuel start stop = some i ∧ i < sels.length := by
  intro fuel
  induction fuel with
  | zero =>
    intro start stop ans h1 h2 h3 h4 h5 h6 h7
    omega
  | succ fuel ih =>
    intro start stop ans h1 h2 h3 h4 h5 h6 h7
    have hmid : (start + stop) / 2 < sels.length := by omega
    obtain ⟨c, hc⟩ : ∃ c, sels.get? ((start + stop) / 2) = some c :=
      ⟨_, List.get?_eq_get hmid⟩
    have hcval : c.val = valAt sels ((start + stop) / 2) := by
      unfold valAt
      rw [hc]
      rfl
    rw [searchBIP3]
    rw [hc]
    by_cases hmid0 : 0 < (start + stop) / 2
    · have hm1 : (start + stop) / 2 - 1 < sels.length := by omega
      obtain ⟨d, hd⟩ : ∃ d, sels.get? ((start + stop) / 2 - 1) = some d :=
        ⟨_, List.get?_eq_get hm1⟩
      have hdval : d.val = valAt sels ((start + stop) / 2 - 1) := by
        unfold valAt
        rw [hd]
        rfl
      rw [if_pos hmid0, hd]
      simp only [Option.map_some']
      by_cases hfound : d.val ≤ elected ∧ elected ≤ c.val
      · rw [if_pos hfound]
        exact ⟨(start + stop) / 2, rfl, hmid⟩
      · rw [if_neg hfound]
        by_cases hgt : c.val < elected
        · have hnd : ¬elected < d.val := by
            have hdc : d.val ≤ c.val := by
              rw [hdval, hcval]
              exact hmono _ _ (by omega) hmid
            omega
          rw [if_pos hgt, if_neg hnd]
          have hans : (start + stop) / 2 + 1 ≤ ans := by
            by_contra hcon
            push_neg at hcon
            have hcmp : valAt sels ans ≤ valAt sels ((start + stop) / 2) :=
              hmono _ _ (by omega) hmid
            rw [← hcval] at hcmp
            omega
          exact ih ((start + stop) / 2 + 1) stop ans h1 hans h3 h4 h5 h6 (by omega)
        · have hlt : elected < d.val := by
            by_contra hcon
            exact hfound ⟨by omega, by omega⟩
          rw [if_neg hgt, if_pos hlt]
          have hans : ans ≤ (start + stop) / 2 - 1 := by
            by_contra hcon
            push_neg at hcon
            have hanspos : ¬ans = 0 := by omega
            rw [if_neg hanspos] at h5
            have hcmp : valAt sels ((start + stop) / 2 - 1) ≤ valAt sels (ans - 1) :=
              hmono _ _ (by omega) (by omega)
            rw [← hdval] at hcmp
            omega
          exact ih start ((start + stop) / 2 - 1) ans h1 h2 hans (by omega) h5 h6 (by omega)
    · rw [if_neg hmid0]
      simp only []
      by_cases hfound : elected ≤ c.val
      · rw [if_pos ⟨Nat.zero_le elected, hfound⟩]
        exact ⟨(start + stop) / 2, rfl, hmid⟩
      · rw [if_neg (fun hc => hfound hc.2)]
        have hgt : c.val < elected := by omega
        rw [if_pos hgt, if_neg (by omega : ¬elected < 0)]
        have hans : (start + stop) / 2 + 1 ≤ ans := by
          by_contra hcon
          push_neg at hcon
          have hcmp : valAt sels ans ≤ valAt sels ((start + stop) / 2) :=
            hmono _ _ (by omega) hmid
          rw [← hcval] at hcmp
          omega
        exact ih ((start + stop) / 2 + 1) stop ans h1 hans h3 h4 h5 h6 (by omega)

theorem valsOk_map_sub (p : ℕ) :
    ∀ (l : List Candidate) (base : ℕ), valsOk l base → p ≤ base →
      valsOk (l.map (fun c => { c with val := c.val - p })) (base - p) := by
  intro l
  induction l with
  | nil => intro base _ _; trivial
  | cons c rest ih =>
    intro base h hp
    refine ⟨?_, ?_⟩
    · have h1 := h.1
      simp only []
      omega
    · have h2 := ih c.val h.2 (by have := h.1; omega)
      simpa using h2

theorem valsOk_removeChosen :
    ∀ (sels : List Candidate) (base chosen : ℕ) (out : Candidate),
      valsOk sels base → sels.get? chosen = some out →
      valsOk (removeChosen sels chosen out.point) base := by
  intro sels
  induction sels with
  | nil => intro base chosen out _ hget; exact Option.noConfusion hget
  | cons c rest ih =>
    intro base chosen out h hget
    cases chosen with
    | zero =>
      rw [List.get?_cons_zero] at hget
      injection hget with hout
      subst hout
      unfold removeChosen
      rw [List.take_zero, List.drop_succ_cons, List.drop_zero, List.nil_append]
      have hmap := valsOk_map_sub c.point rest c.val h.2 (by have := h.1; omega)
      have hbase : c.val - c.point = base := by have := h.1; omega
      rwa [hbase] at hmap
    | succ chosen =>
      rw [List.get?_cons_succ] at hget
      unfold removeChosen
      rw [List.take_succ_cons, List.drop_succ_cons, List.cons_append]
      exact ⟨h.1, ih c.val chosen out h.2 hget⟩

theorem removeChosen_length (sels : List Candidate) (chosen : ℕ) (p : ℕ)
    (h : chosen < sels.length) :
    (removeChosen sels chosen p).length = sels.length - 1 := by
  unfold removeChosen
  rw [List.length_append, List.length_take, List.length_map, List.length_drop]
  omega

theorem removeChosen_point_mem (sels : List Candidate) (chosen : ℕ) (p : ℕ) :
    ∀ c ∈ removeChosen sels chosen p, ∃ d ∈ sels, c.point = d.point := by
  intro c hc
  unfold removeChosen at hc
  rcases List.mem_append.mp hc with h | h
  · exact ⟨c, List.mem_of_mem_take h, rfl⟩
  · rcases List.mem_map.mp h with ⟨d, hd, hdc⟩
    exact ⟨d, List.mem_of_mem_drop hd, by rw [← hdc]⟩

/-- The element decomposition of a list at an index. -/
theorem decomp_at (sels : List Candidate) (chosen : ℕ) (out : Candidate)
    (hget : sels.get? chosen = some out) :
    sels = sels.take chosen ++ out :: sels.drop (chosen + 1) := by
  obtain ⟨hlt, hval⟩ := List.get?_eq_some.mp hget
  conv_lhs => rw [← List.take_append_drop chosen sels]
  rw [List.drop_eq_get_cons hlt, hval]

theorem removeChosen_addresses (sels : List Candidate) (chosen p : ℕ) :
    (removeChosen sels chosen p).map Candidate.address =
      (sels.take chosen).map Candidate.address ++
        (sels.drop (chosen + 1)).map Candidate.address := by
  unfold removeChosen
  rw [List.map_append, List.map_map]
  congr 1

theorem removeChosen_points (sels : List Candidate) (chosen p : ℕ) :
    (removeChosen sels chosen p).map Candidate.point =
      (sels.take chosen).map Candidate.point ++
        (sels.drop (chosen + 1)).map Candidate.point := by
  unfold removeChosen
  rw [List.map_append, List.map_map]
  congr 1

/-- The invariant carried by the election accumulators of both variants:
ranks are exactly `1..k` in insertion order, each score is the base score
minus `(rank - 1) * gap`, and no address occurs twice. -/
def accInv (acc : List (ℕ × VoteResult)) (base gap : ℤ) : Prop :=
  acc.map (fun p => p.2.rank) = List.range' 1 acc.length ∧
  (∀ p ∈ acc, p.2.score = base - ((p.2.rank : ℤ) - 1) * gap) ∧
  (acc.map Prod.fst).Nodup

theorem putResult_fresh (rs : List (ℕ × VoteResult)) (a : ℕ) (v : VoteResult)
    (h : ∀ p ∈ rs, p.1 ≠ a) : putResult rs a v = rs ++ [(a, v)] := by
  unfold putResult
  rw [if_neg]
  intro hc
  rcases List.any_eq_true.mp hc with ⟨p, hp, hpa⟩
  exact h p hp (by simpa using hpa)

theorem accInv_append (acc : List (ℕ × VoteResult)) (base gap : ℤ) (a : ℕ)
    (v : VoteResult) (hinv : accInv acc base gap) (hrank : v.rank = acc.length + 1)
    (hscore : v.score = base - (acc.length : ℤ) * gap)
    (hfresh : a ∉ acc.map Prod.fst) :
    accInv (acc ++ [(a, v)]) base gap := by
  obtain ⟨hr, hs, hn⟩ := hinv
  refine ⟨?_, ?_, ?_⟩
  · have hlen2 : (acc ++ [(a, v)]).length = acc.length + 1 := by simp
    rw [List.map_append, hlen2, List.range'_1_concat, hr]
    dsimp only [List.map_cons, List.map_nil]
    rw [hrank]
    rw [show acc.length + 1 = 1 + acc.length from by omega]
  · intro p hp
    rcases List.mem_append.mp hp with h1 | h1
    · exact hs p h1
    · have hp2 : p = (a, v) := List.mem_singleton.mp h1
      subst hp2
      dsimp only
      rw [hscore, hrank]
      push_cast
      ring
  · rw [List.map_append]
    simp only [List.map_cons, List.map_nil]
    rw [← List.concat_eq_append]
    exact List.Nodup.concat hfresh hn

theorem selectLoopBIP3_spec (stream : ℕ → ℕ) (gap base : ℤ) :
    ∀ (n : ℕ) (sels : List Candidate) (total : ℕ) (acc : List (ℕ × VoteResult)) (idx : ℕ),
      sels.length = n →
      valsOk sels 0 → (∀ c ∈ sels, 0 < c.point) →
      total = (sels.map Candidate.point).sum →
      (sels.map Candidate.address).Nodup →
      (∀ a ∈ acc.map Prod.fst, a ∉ sels.map Candidate.address) →
      accInv acc base gap →
      ∃ res, selectLoopBIP3 stream gap n sels total (acc.length + 1)
          (base - (acc.length : ℤ) * gap) idx acc = some res ∧
        accInv res base gap ∧ res.length = acc.length + sels.length ∧
        List.Perm (res.map Prod.fst)
          (acc.map Prod.fst ++ sels.map Candidate.address) := by
  intro n
  induction n with
  | zero =>
    intro sels total acc idx hlen hvals hpts htotal hnd hdisj hinv
    have hnil : sels = [] := List.length_eq_zero.mp hlen
    subst hnil
    exact ⟨acc, rfl, hinv, by simp, by simp⟩
  | succ n ih =>
    intro sels total acc idx hlen hvals hpts htotal hnd hdisj hinv
    have hne : sels ≠ [] := by
      intro hc
      rw [hc] at hlen
      simp at hlen
    have hnb : ¬sels.isEmpty = true := by
      cases sels with
      | nil => exact absurd rfl hne
      | cons c rest => simp
    have htpos : 0 < total := by
      rw [htotal]
      cases sels with
      | nil => exact absurd rfl hne
      | cons c rest =>
        rw [List.map_cons, List.sum_cons]
        have := hpts c (List.mem_cons_self c rest)
        omega
    have helec_lt : stream idx % total < total := Nat.mod_lt _ htpos
    have hmono := valAt_mono sels 0 hvals
    have hlast := valsOk_last sels hvals hne
    have hle : stream idx % total ≤ valAt sels (sels.length - 1) := by
      rw [hlast, ← htotal]
      omega
    obtain ⟨ans, hans1, hans2, hans3⟩ := exists_ans sels (stream idx % total) hne hle
    obtain ⟨chosen, hsearch, hchosen⟩ :=
      searchBIP3_success sels (stream idx % total) hmono (sels.length + 1) 0
        (sels.length - 1) ans hans1 (Nat.zero_le ans) (by omega) (by omega) hans2 hans3
        (by omega)
    obtain ⟨out, hget⟩ : ∃ out, sels.get? chosen = some out := ⟨_, List.get?_eq_get hchosen⟩
    have hmem_addr : out.address ∈ sels.map Candidate.address :=
      List.mem_map.mpr ⟨out, List.get?_mem hget, rfl⟩
    have hfresh : ∀ p ∈ acc, p.1 ≠ out.address := by
      intro p hp hc
      have hmem := hdisj p.1 (List.mem_map.mpr ⟨p, hp, rfl⟩)
      rw [hc] at hmem
      exact hmem hmem_addr
    have hfresh2 : out.address ∉ acc.map Prod.fst := by
      intro hc
      rcases List.mem_map.mp hc with ⟨p, hp, hpa⟩
      exact hfresh p hp hpa
    have hdec := decomp_at sels chosen out hget
    have haddrs : sels.map Candidate.address =
        (sels.take chosen).map Candidate.address ++
          out.address :: (sels.drop (chosen + 1)).map Candidate.address := by
      conv_lhs => rw [hdec]
      rw [List.map_append, List.map_cons]
    have hsum : (sels.map Candidate.point).sum =
        ((sels.take chosen).map Candidate.point).sum + out.point +
          ((sels.drop (chosen + 1)).map Candidate.point).sum := by
      conv_lhs => rw [hdec]
      rw [List.map_append, List.map_cons, List.sum_append, List.sum_cons]
      omega
    have hnm := List.nodup_cons.mp (List.nodup_middle.mp (haddrs ▸ hnd))
    -- invariants for the recursive call
    have hlen2 : (removeChosen sels chosen out.point).length = n := by
      rw [removeChosen_length sels chosen out.point hchosen]
      omega
    have hvals2 : valsOk (removeChosen sels chosen out.point) 0 :=
      valsOk_removeChosen sels 0 chosen out hvals hget
    have hpts2 : ∀ c ∈ removeChosen sels chosen out.point, 0 < c.point := by
      intro c hc
      obtain ⟨d, hd, hdp⟩ := removeChosen_point_mem sels chosen out.point c hc
      rw [hdp]
      exact hpts d hd
    have htotal2 : total - out.point = ((removeChosen sels chosen out.point).map
        Candidate.point).sum := by
      rw [removeChosen_points, List.sum_append, htotal, hsum]
      omega
    have hnd2 : ((removeChosen sels chosen out.point).map Candidate.address).Nodup := by
      rw [removeChosen_addresses]
      exact hnm.2
    have hdisj2 : ∀ a ∈ (acc ++ [(out.address,
        ({ score := base - (acc.length : ℤ) * gap, rank := acc.length + 1 } :
          VoteResult))]).map Prod.fst,
        a ∉ (removeChosen sels chosen out.point).map Candidate.address := by
      intro a ha
      rw [removeChosen_addresses]
      rw [List.map_append] at ha
      rcases List.mem_append.mp ha with h1 | h1
      · intro hc
        apply hdisj a h1
        rw [haddrs]
        rcases List.mem_append.mp hc with h2 | h2
        · exact List.mem_append.mpr (Or.inl h2)
        · exact List.mem_append.mpr (Or.inr (List.mem_cons_of_mem _ h2))
      · simp only [List.map_cons, List.map_nil, List.mem_singleton] at h1
        rw [h1]
        exact hnm.1
    have hinv2 : accInv (acc ++ [(out.address,
        ({ score := base - (acc.length : ℤ) * gap, rank := acc.length + 1 } :
          VoteResult))]) base gap :=
      accInv_append acc base gap out.address _ hinv rfl rfl hfresh2
    obtain ⟨res, hres, hresinv, hreslen, hresperm⟩ :=
      ih (removeChosen sels chosen out.point) (total - out.point)
        (acc ++ [(out.address,
          ({ score := base - (acc.length : ℤ) * gap, rank := acc.length + 1 } :
            VoteResult))]) (idx + 1) hlen2 hvals2 hpts2 htotal2 hnd2 hdisj2 hinv2
    refine ⟨res, ?_, hresinv, ?_, ?_⟩
    · -- run one loop iteration and plug in the recursive result
      rw [selectLoopBIP3, if_neg hnb, if_neg (by omega : ¬total = 0)]
      simp only []
      rw [hsearch]
      simp only []
      rw [hget]
      simp only []
      rw [putResult_fresh acc out.address _ hfresh]
      rw [show ((acc ++ [(out.address,
          ({ score := base - (acc.length : ℤ) * gap, rank := acc.length + 1 } :
            VoteResult))]).length) = acc.length + 1 from by simp] at hres
      rw [show (base - ((acc.length + 1 : ℕ) : ℤ) * gap) =
          base - (acc.length : ℤ) * gap - gap from by push_cast; ring] at hres
      exact hres
    · rw [hreslen, List.length_append, removeChosen_length sels chosen out.point hchosen]
      simp only [List.length_cons, List.length_nil]
      omega
    · refine hresperm.trans ?_
      rw [List.map_append, removeChosen_addresses, haddrs]
      simp only [List.map_cons, List.map_nil]
      rw [List.append_assoc]
      refine List.Perm.append_left (acc.map Prod.fst) ?_
      rw [List.singleton_append]
      exact List.perm_middle.symm

theorem selectBIP3_complete (stream : ℕ → ℕ) (sels : List Candidate) (total : ℕ)
    (hvals : valsOk sels 0) (hpts : ∀ c ∈ sels, 0 < c.point)
    (htotal : total = (sels.map Candidate.point).sum)
    (hnd : (sels.map Candidate.address).Nodup) (hne : sels ≠ []) :
    ∃ res, selectBIP3BlockCreator stream sels total = some res ∧
      accInv res maxElectScore ((maxElectScore - minElectScore) / (sels.length : ℤ)) ∧
      res.length = sels.length ∧
      List.Perm (res.map Prod.fst) (sels.map Candidate.address) := by
  obtain ⟨res, hres, hinv, hlen, hperm⟩ :=
    selectLoopBIP3_spec stream ((maxElectScore - minElectScore) / (sels.length : ℤ))
      maxElectScore sels.length sels total [] 0 rfl hvals hpts htotal hnd
      (by intro a ha; simp at ha)
      ⟨rfl, fun p hp => absurd hp (List.not_mem_nil p), List.nodup_nil⟩
  simp only [List.length_nil, Nat.cast_zero, zero_mul, sub_zero, Nat.zero_add,
    List.map_nil, List.nil_append] at hres hlen hperm
  refine ⟨res, ?_, hinv, hlen, hperm⟩
  unfold selectBIP3BlockCreator
  rw [if_neg (fun hc => hne (List.length_eq_zero.mp hc))]
  exact hres

/-- C10: the BIP3 elector's implicit preconditions.  On an empty candidate
list the score-gap division `(maxElectScore - minElectScore) / 0` panics
(modelled by `none`); on a non-empty list with zero total point the first
draw `rand.Int63n(0)` panics (`none`); and under the preconditions
(non-empty list, prefix-sum `val`s, every point positive — hence total
positive) the loop elects every candidate exactly once and terminates with
the candidate list exhausted: the result holds one entry per input
candidate, its keys a permutation of the candidate addresses. -/
theorem selectBIP3_preconditions :
    (∀ (stream : ℕ → ℕ) (total : ℕ), selectBIP3BlockCreator stream [] total = none) ∧
    (∀ (stream : ℕ → ℕ) (sels : List Candidate), sels ≠ [] →
        selectBIP3BlockCreator stream sels 0 = none) ∧
    (∀ (stream : ℕ → ℕ) (sels : List Candidate) (total : ℕ),
        valsOk sels 0 → (∀ c ∈ sels, 0 < c.point) →
        total = (sels.map Candidate.point).sum →
        (sels.map Candidate.address).Nodup → sels ≠ [] →
        ∃ res, selectBIP3BlockCreator stream sels total = some res ∧
          res.length = sels.length ∧
          List.Perm (res.map Prod.fst) (sels.map Candidate.address)) := by
  refine ⟨?_, ?_, ?_⟩
  · intro stream total
    rfl
  · intro stream sels hne
    unfold selectBIP3BlockCreator
    rw [if_neg (fun hc => hne (List.length_eq_zero.mp hc))]
    cases sels with
    | nil => exact absurd rfl hne
    | cons c rest =>
      rw [show (c :: rest).length = rest.length + 1 from rfl, selectLoopBIP3]
      rw [if_neg (by simp), if_pos rfl]
  · intro stream sels total h1 h2 h3 h4 h5
    obtain ⟨res, hres, _, hlen, hperm⟩ := selectBIP3_complete stream sels total h1 h2 h3 h4 h5
    exact ⟨res, hres, hlen, hperm⟩

/-- Witness for `selectBIP3_preconditions` on two unit-point candidates. -/
theorem selectBIP3_preconditions_witness :
    valsOk [⟨0, 1, 1⟩, ⟨1, 1, 2⟩] 0 ∧
      (∀ c ∈ ([⟨0, 1, 1⟩, ⟨1, 1, 2⟩] : List Candidate), 0 < c.point) ∧
      (2 : ℕ) = (([⟨0, 1, 1⟩, ⟨1, 1, 2⟩] : List Candidate).map Candidate.point).sum ∧
      (([⟨0, 1, 1⟩, ⟨1, 1, 2⟩] : List Candidate).map Candidate.address).Nodup ∧
      ([⟨0, 1, 1⟩, ⟨1, 1, 2⟩] : List Candidate) ≠ [] ∧
      (∃ res, selectBIP3BlockCreator (fun _ => 0) [⟨0, 1, 1⟩, ⟨1, 1, 2⟩] 2 = some res ∧
        res.length = ([⟨0, 1, 1⟩, ⟨1, 1, 2⟩] : List Candidate).length ∧
        List.Perm (res.map Prod.fst)
          (([⟨0, 1, 1⟩, ⟨1, 1, 2⟩] : List Candidate).map Candidate.address)) :=
  ⟨⟨rfl, rfl, trivial⟩, by decide, by decide, by decide, by decide,
    selectBIP3_preconditions.2.2 (fun _ => 0) [⟨0, 1, 1⟩, ⟨1, 1, 2⟩] 2
      ⟨rfl, rfl, trivial⟩ (by decide) (by decide) (by decide) (by decide)⟩

/-- A family of unit-point candidates with prefix-sum `val`s, used to
exercise the elector on more than `MaxMiner` candidates. -/
def unitCandsAux : ℕ → ℕ → List Candidate
  | _, 0 => []
  | k, n + 1 => { address := k, point := 1, val := k + 1 } :: unitCandsAux (k + 1) n

def unitCands (n : ℕ) : List Candidate := unitCandsAux 0 n

theorem unitCandsAux_length : ∀ (n k : ℕ), (unitCandsAux k n).length = n := by
  intro n
  induction n with
  | zero => intro k; rfl
  | succ n ih =>
    intro k
    rw [unitCandsAux, List.length_cons, ih (k + 1)]

theorem unitCandsAux_valsOk : ∀ (n k : ℕ), valsOk (unitCandsAux k n) k := by
  intro n
  induction n with
  | zero => intro k; trivial
  | succ n ih => exact fun k => ⟨rfl, ih (k + 1)⟩

theorem unitCandsAux_points : ∀ (n k : ℕ), ∀ c ∈ unitCandsAux k n, 0 < c.point := by
  intro n
  induction n with
  | zero => intro k c hc; exact absurd hc (List.not_mem_nil c)
  | succ n ih =>
    intro k c hc
    rcases List.mem_cons.mp hc with h | h
    · rw [h]
      exact Nat.one_pos
    · exact ih (k + 1) c h

theorem unitCandsAux_sum : ∀ (n k : ℕ), ((unitCandsAux k n).map Candidate.point).sum = n := by
  intro n
  induction n with
  | zero => intro k; rfl
  | succ n ih =>
    intro k
    rw [unitCandsAux, List.map_cons, List.sum_cons, ih (k + 1)]
    show 1 + n = n + 1
    omega

theorem unitCandsAux_addrs : ∀ (n k : ℕ),
    (unitCandsAux k n).map Candidate.address = List.range' k n := by
  intro n
  induction n with
  | zero => intro k; rfl
  | succ n ih =>
    intro k
    rw [unitCandsAux, List.map_cons, ih (k + 1), List.range'_succ]

/-- C6 counterexample: the claim bounds the number of assigned ranks by
`MaxMiner = 10000` for either variant, but `selectBIP3BlockCreator` has no
such cap — it elects until the candidate list is empty.  On 10001
unit-point candidates the run completes with ranks `1..10001`, so an
address holds rank `10001 > MaxMiner`. -/
theorem selection_shape_counterexample :
    ∃ res, selectBIP3BlockCreator (fun _ => 0) (unitCands 10001) 10001 = some res ∧
      res.map (fun p => p.2.rank) = List.range' 1 10001 ∧ MaxMiner < res.length := by
  obtain ⟨res, hres, hinv, hlen, _⟩ :=
    selectBIP3_complete (fun _ => 0) (unitCands 10001) 10001
      (unitCandsAux_valsOk 10001 0)
      (unitCandsAux_points 10001 0)
      ((unitCandsAux_sum 10001 0).symm)
      (by rw [unitCands, unitCandsAux_addrs]; exact List.nodup_range' 0 10001)
      (by
        intro hc
        have := unitCandsAux_length 10001 0
        rw [show unitCandsAux 0 10001 = unitCands 10001 from rfl, hc] at this
        simp at this)
  have hlen2 : res.length = 10001 := by
    rw [hlen]
    exact unitCandsAux_length 10001 0
  refine ⟨res, hres, ?_, ?_⟩
  · rw [hinv.1, hlen2]
  · rw [hlen2]
    decide

/-- A queued sub-range of the pre-BIP3 elector: `[min, max]` is a value
range inside `[0, total)` and `[start, stop)` the index window of
candidates covered (`stop` is the source's `end`, a Go keyword-free
rename). -/
structure SelRange where
  min : ℕ
  max : ℕ
  start : ℕ
  stop : ℕ
deriving DecidableEq

/-- `Range.binarySearch` of the pre-BIP3 elector, translated from the
source: search `[s, e)` for the index whose inclusive range
`[val_{target-1}, val_target]` (with `r.min` at index 0) holds `random`,
then enqueue the left and right sub-ranges.  The queue (`queue.go` is not
among the sources) is modelled from the spec as an unbounded FIFO list;
`enqueue` appends, `dequeue` takes the head.  The source's `a - 1` is a
`uint64` subtraction; under the positive-point hypotheses of the theorems
every reachable `a` is positive, where it agrees with the truncated
subtraction used here.  The `for {}` loop is modelled with fuel. -/
def binarySearch (sels : List Candidate) (r : SelRange) (random : ℕ) :
    ℕ → ℕ → ℕ → List SelRange → Option (ℕ × List SelRange)
  | 0, _, _, _ => none
  | fuel + 1, s, e, q =>
    let target := (s + e) / 2
    match sels.get? target with
    | none => none
    | some c =>
      match (if 0 < target then (sels.get? (target - 1)).map Candidate.val else some r.min) with
      | none => none
      | some a =>
        if a ≤ random ∧ random ≤ c.val then
          let q1 := if r.start ≠ target then q ++ [⟨r.min, a - 1, r.start, target⟩] else q
          let q2 :=
            if target + 1 ≠ r.stop then q1 ++ [⟨c.val + 1, r.max, target + 1, r.stop⟩] else q1
          some (target, q2)
        else
          binarySearch sels r random fuel (if random < a then s else target + 1)
            (if random < a then target else e) q

/-- One dequeue step of the pre-BIP3 elector: a window of at most one
index elects `selections[r.start]` without drawing; otherwise draw
`rand.Int63n(r.max - r.min) + r.min` from the seeded stream (`Int63n`
panics on a non-positive bound, modelled by `none`) and run the binary
search. -/
def rangeSearch (sels : List Candidate) (q : List SelRange) (r : SelRange)
    (stream : ℕ → ℕ) (idx : ℕ) : Option (ℕ × List SelRange × ℕ) :=
  if r.stop - r.start ≤ 1 then
    match sels.get? r.start with
    | none => none
    | some _ => some (r.start, q, idx)
  else if r.max ≤ r.min then none
  else
    match binarySearch sels r (r.min + stream idx % (r.max - r.min)) (r.stop + 2)
        r.start r.stop q with
    | none => none
    | some (t, q2) => some (t, q2, idx + 1)

/-- The election loop of `Candidates.selectBlockCreator` (pre-BIP3),
translated from the source: dequeue, search, record
`{score + ts, count}`, decrement the score by the gap, until the queue is
empty or `MaxMiner` ranks are assigned. -/
def selectLoopV1 (sels : List Candidate) (stream : ℕ → ℕ) (gap ts : ℤ) :
    ℕ → List SelRange → ℕ → ℤ → ℕ → List (ℕ × VoteResult) →
    Option (List (ℕ × VoteResult))
  | 0, _, _, _, _, _ => none
  | fuel + 1, q, count, score, idx, acc =>
    match q with
    | [] => some acc
    | r :: q0 =>
      if MaxMiner < count then some acc
      else
        match rangeSearch sels q0 r stream idx with
        | none => none
        | some (target, q2, idx2) =>
          match sels.get? target with
          | none => none
          | some c =>
            selectLoopV1 sels stream gap ts fuel q2 (count + 1) (score - gap) idx2
              (putResult acc c.address { score := score + ts, rank := count })

/-- `Candidates.selectBlockCreator` (pre-BIP3), translated from the
source: queue seeded with the full range `{0, total, 0, candidateCount}`,
gap `(maxElectScore - minElectScore) / candidateCount` (integer division
by zero — a Go panic — on an empty candidate list, modelled by `none`),
and the candidates' registry timestamp `ts` added to every score. -/
def selectBlockCreator (stream : ℕ → ℕ) (sels : List Candidate) (total : ℕ) (ts : ℤ) :
    Option (List (ℕ × VoteResult)) :=
  if sels.length = 0 then none
  else
    selectLoopV1 sels stream ((maxElectScore - minElectScore) / (sels.length : ℤ)) ts
      (MaxMiner + 1) [⟨0, total, 0, sels.length⟩] 1 maxElectScore 0 []

/-- Membership of index `i` in a queued range's index window. -/
def inW (r : SelRange) (i : ℕ) : Prop := r.start ≤ i ∧ i < r.stop

/-- The queue invariant of the pre-BIP3 elector: every queued window is
non-empty and in bounds, a multi-index window's value bound stays below
the window's last cumulative `val`, windows are pairwise disjoint, and no
window covers an already elected address. -/
def QInv (sels : List Candidate) (q : List SelRange) (keys : List ℕ) : Prop :=
  (∀ r ∈ q, r.start < r.stop ∧ r.stop ≤ sels.length ∧
    (2 ≤ r.stop - r.start → r.max ≤ valAt sels (r.stop - 1))) ∧
  List.Pairwise (fun r1 r2 => ∀ i, inW r1 i → ¬inW r2 i) q ∧
  (∀ r ∈ q, ∀ i, inW r i → addrAt sels i ∉ keys)

theorem addrAt_inj (sels : List Candidate) (hnd : (sels.map Candidate.address).Nodup)
    (i j : ℕ) (hi : i < sels.length) (hj : j < sels.length) (hne : i ≠ j) :
    addrAt sels i ≠ addrAt sels j := by
  intro hc
  apply hne
  have hi2 : i < (sels.map Candidate.address).length := by rwa [List.length_map]
  have hj2 : j < (sels.map Candidate.address).length := by rwa [List.length_map]
  have h1 : (sels.map Candidate.address).get? i = some (addrAt sels i) := by
    unfold addrAt
    rw [List.get?_map, List.get?_eq_get hi]
    rfl
  have h2 : (sels.map Candidate.address).get? j = some (addrAt sels j) := by
    unfold addrAt
    rw [List.get?_map, List.get?_eq_get hj]
    rfl
  exact List.get?_inj hi2 hnd (by rw [h1, h2, hc])

theorem binarySearch_found (sels : List Candidate) (r : SelRange) (random : ℕ)
    (q : List SelRange) (hrs : r.start < r.stop)
    (hmax : r.max ≤ valAt sels (r.stop - 1)) (hrand : random < r.max) :
    ∀ (fuel s e t : ℕ) (q2 : List SelRange),
      r.start ≤ s → s ≤ e + 1 → r.start ≤ e → e ≤ r.stop →
      binarySearch sels r random fuel s e q = some (t, q2) →
      r.start ≤ t ∧ t < r.stop ∧
      ∃ ext, q2 = q ++ ext ∧
        (∀ x ∈ ext, x.start < x.stop ∧ x.stop ≤ r.stop ∧ r.start ≤ x.start ∧
          ¬inW x t ∧ (2 ≤ x.stop - x.start → x.max ≤ valAt sels (x.stop - 1))) ∧
        List.Pairwise (fun r1 r2 => ∀ i, inW r1 i → ¬inW r2 i) ext := by
  intro fuel
  induction fuel with
  | zero =>
    intro s e t q2 _ _ _ _ heq
    exact Option.noConfusion heq
  | succ fuel ih =>
    intro s e t q2 hs hse he hestop heq
    rw [binarySearch] at heq
    rcases hc : sels.get? ((s + e) / 2) with _ | c
    · rw [hc] at heq
      exact Option.noConfusion heq
    rw [hc] at heq
    have hcval : c.val = valAt sels ((s + e) / 2) := by
      unfold valAt
      rw [hc]
      rfl
    by_cases h0 : 0 < (s + e) / 2
    · rw [if_pos h0] at heq
      rcases hd : sels.get? ((s + e) / 2 - 1) with _ | d
      · rw [hd] at heq
        simp only [Option.map_none'] at heq
        exact Option.noConfusion heq
      rw [hd] at heq
      simp only [Option.map_some'] at heq
      have hdval : d.val = valAt sels ((s + e) / 2 - 1) := by
        unfold valAt
        rw [hd]
        rfl
      by_cases hfound : d.val ≤ random ∧ random ≤ c.val
      · rw [if_pos hfound] at heq
        simp only [Option.some.injEq, Prod.mk.injEq] at heq
        obtain ⟨ht, hq2⟩ := heq
        subst ht
        have htlt : (s + e) / 2 < r.stop := by
          by_contra hcon
          push_neg at hcon
          have hteq : (s + e) / 2 = r.stop := by omega
          have hmx : r.max ≤ d.val := by
            rw [hdval, hteq]
            exact hmax
          omega
        refine ⟨by omega, htlt,
          (if r.start ≠ (s + e) / 2 then
            [⟨r.min, d.val - 1, r.start, (s + e) / 2⟩] else []) ++
          (if (s + e) / 2 + 1 ≠ r.stop then
            [⟨c.val + 1, r.max, (s + e) / 2 + 1, r.stop⟩] else []), ?_, ?_, ?_⟩
        · rw [← hq2]
          by_cases hL : r.start ≠ (s + e) / 2 <;>
            by_cases hR : (s + e) / 2 + 1 ≠ r.stop <;>
              simp [hL, hR, List.append_assoc]
        · intro x hx
          rcases List.mem_append.mp hx with hx1 | hx1
          · by_cases hL : r.start ≠ (s + e) / 2
            · rw [if_pos hL] at hx1
              have hx2 := List.mem_singleton.mp hx1
              subst hx2
              dsimp only [inW]
              exact ⟨by omega, by omega, by omega, by omega, fun hwin => by omega⟩
            · rw [if_neg hL] at hx1
              exact absurd hx1 (List.not_mem_nil x)
          · by_cases hR : (s + e) / 2 + 1 ≠ r.stop
            · rw [if_pos hR] at hx1
              have hx2 := List.mem_singleton.mp hx1
              subst hx2
              dsimp only [inW]
              exact ⟨by omega, by omega, by omega, by omega, fun hwin => hmax⟩
            · rw [if_neg hR] at hx1
              exact absurd hx1 (List.not_mem_nil x)
        · by_cases hL : r.start ≠ (s + e) / 2 <;> by_cases hR : (s + e) / 2 + 1 ≠ r.stop
          · rw [if_pos hL, if_pos hR]
            rw [List.singleton_append, List.pairwise_cons]
            refine ⟨?_, List.pairwise_singleton _ _⟩
            intro y hy i hwi
            have hy2 := List.mem_singleton.mp hy
            subst hy2
            dsimp only [inW] at hwi ⊢
            omega
          · rw [if_pos hL, if_neg hR, List.append_nil]
            exact List.pairwise_singleton _ _
          · rw [if_neg hL, if_pos hR, List.nil_append]
            exact List.pairwise_singleton _ _
          · rw [if_neg hL, if_neg hR, List.append_nil]
            exact List.Pairwise.nil
      · rw [if_neg hfound] at heq
        by_cases hlt : random < d.val
        · rw [if_pos hlt, if_pos hlt] at heq
          exact ih s ((s + e) / 2) t q2 hs (by omega) (by omega) (by omega) heq
        · rw [if_neg hlt, if_neg hlt] at heq
          exact ih ((s + e) / 2 + 1) e t q2 (by omega) (by omega) he hestop heq
    · rw [if_neg h0] at heq
      simp only [] at heq
      by_cases hfound : r.min ≤ random ∧ random ≤ c.val
      · rw [if_pos hfound] at heq
        simp only [Option.some.injEq, Prod.mk.injEq] at heq
        obtain ⟨ht, hq2⟩ := heq
        subst ht
        have htlt : (s + e) / 2 < r.stop := by omega
        refine ⟨by omega, htlt,
          (if r.start ≠ (s + e) / 2 then
            [⟨r.min, r.min - 1, r.start, (s + e) / 2⟩] else []) ++
          (if (s + e) / 2 + 1 ≠ r.stop then
            [⟨c.val + 1, r.max, (s + e) / 2 + 1, r.stop⟩] else []), ?_, ?_, ?_⟩
        · rw [← hq2]
          by_cases hL : r.start ≠ (s + e) / 2 <;>
            by_cases hR : (s + e) / 2 + 1 ≠ r.stop <;>
              simp [hL, hR, List.append_assoc]
        · intro x hx
          rcases List.mem_append.mp hx with hx1 | hx1
          · by_cases hL : r.start ≠ (s + e) / 2
            · exact absurd (by omega : r.start = (s + e) / 2) hL
            · rw [if_neg hL] at hx1
              exact absurd hx1 (List.not_mem_nil x)
          · by_cases hR : (s + e) / 2 + 1 ≠ r.stop
            · rw [if_pos hR] at hx1
              have hx2 := List.mem_singleton.mp hx1
              subst hx2
              dsimp only [inW]
              exact ⟨by omega, by omega, by omega, by omega, fun hwin => hmax⟩
            · rw [if_neg hR] at hx1
              exact absurd hx1 (List.not_mem_nil x)
        · have hL : ¬r.start ≠ (s + e) / 2 := by omega
          rw [if_neg hL, List.nil_append]
          by_cases hR : (s + e) / 2 + 1 ≠ r.stop
          · rw [if_pos hR]
            exact List.pairwise_singleton _ _
          · rw [if_neg hR]
            exact List.Pairwise.nil
      · rw [if_neg hfound] at heq
        by_cases hlt : random < r.min
        · rw [if_pos hlt, if_pos hlt] at heq
          exact ih s ((s + e) / 2) t q2 hs (by omega) (by omega) (by omega) heq
        · rw [if_neg hlt, if_neg hlt] at heq
          exact ih ((s + e) / 2 + 1) e t q2 (by omega) (by omega) he hestop heq

theorem rangeSearch_found (sels : List Candidate) (q0 : List SelRange) (r : SelRange)
    (stream : ℕ → ℕ) (idx : ℕ) (hrs : r.start < r.stop)
    (hmaxb : 2 ≤ r.stop - r.start → r.max ≤ valAt sels (r.stop - 1))
    (target : ℕ) (q2 : List SelRange) (idx2 : ℕ)
    (heq : rangeSearch sels q0 r stream idx = some (target, q2, idx2)) :
    r.start ≤ target ∧ target < r.stop ∧
    ∃ ext, q2 = q0 ++ ext ∧
      (∀ x ∈ ext, x.start < x.stop ∧ x.stop ≤ r.stop ∧ r.start ≤ x.start ∧
        ¬inW x target ∧ (2 ≤ x.stop - x.start → x.max ≤ valAt sels (x.stop - 1))) ∧
      List.Pairwise (fun r1 r2 => ∀ i, inW r1 i → ¬inW r2 i) ext := by
  unfold rangeSearch at heq
  by_cases h1 : r.stop - r.start ≤ 1
  · rw [if_pos h1] at heq
    rcases hg : sels.get? r.start with _ | c
    · rw [hg] at heq
      exact Option.noConfusion heq
    · rw [hg] at heq
      simp only [Option.some.injEq, Prod.mk.injEq] at heq
      obtain ⟨ht, hq, _⟩ := heq
      subst ht
      refine ⟨le_refl _, hrs, [], by rw [← hq, List.append_nil], ?_, List.Pairwise.nil⟩
      intro x hx
      exact absurd hx (List.not_mem_nil x)
  · rw [if_neg h1] at heq
    by_cases h2 : r.max ≤ r.min
    · rw [if_pos h2] at heq
      exact Option.noConfusion heq
    · rw [if_neg h2] at heq
      rcases hb : binarySearch sels r (r.min + stream idx % (r.max - r.min)) (r.stop + 2)
          r.start r.stop q0 with _ | tq
      · rw [hb] at heq
        exact Option.noConfusion heq
      · rw [hb] at heq
        obtain ⟨t, qq⟩ := tq
        simp only [Option.some.injEq, Prod.mk.injEq] at heq
        obtain ⟨ht, hq, _⟩ := heq
        rw [ht, hq] at hb
        have hrand : r.min + stream idx % (r.max - r.min) < r.max := by
          have := Nat.mod_lt (stream idx) (show 0 < r.max - r.min by omega)
          omega
        exact binarySearch_found sels r (r.min + stream idx % (r.max - r.min)) q0 hrs
          (hmaxb (by omega)) hrand (r.stop + 2) r.start r.stop target q2
          (le_refl _) (by omega) (le_of_lt hrs) (le_refl _) hb

theorem QInv_step (sels : List Candidate) (r : SelRange) (q0 : List SelRange)
    (keys : List ℕ) (target : ℕ) (ext : List SelRange)
    (hnd : (sels.map Candidate.address).Nodup)
    (hq : QInv sels (r :: q0) keys)
    (hts : r.start ≤ target) (htlt : target < r.stop)
    (hprops : ∀ x ∈ ext, x.start < x.stop ∧ x.stop ≤ r.stop ∧ r.start ≤ x.start ∧
      ¬inW x target ∧ (2 ≤ x.stop - x.start → x.max ≤ valAt sels (x.stop - 1)))
    (hpw : List.Pairwise (fun r1 r2 => ∀ i, inW r1 i → ¬inW r2 i) ext) :
    QInv sels (q0 ++ ext) (keys ++ [addrAt sels target]) := by
  obtain ⟨hw, hpair, hkeys⟩ := hq
  have hrw := hw r (List.mem_cons_self r q0)
  have hsub : ∀ x ∈ ext, ∀ i, inW x i → inW r i := by
    intro x hx i hi
    obtain ⟨_, h2, h3, _, _⟩ := hprops x hx
    exact ⟨le_trans h3 hi.1, lt_of_lt_of_le hi.2 h2⟩
  refine ⟨?_, ?_, ?_⟩
  · intro x hx
    rcases List.mem_append.mp hx with hx1 | hx1
    · exact hw x (List.mem_cons_of_mem r hx1)
    · obtain ⟨h1, h2, _, _, h5⟩ := hprops x hx1
      exact ⟨h1, le_trans h2 hrw.2.1, h5⟩
  · rw [List.pairwise_append]
    refine ⟨(List.pairwise_cons.mp hpair).2, hpw, ?_⟩
    intro x hx y hy i hxi hyi
    exact (List.pairwise_cons.mp hpair).1 x hx i (hsub y hy i hyi) hxi
  · intro x hx i hi
    have hib : i < sels.length := by
      rcases List.mem_append.mp hx with hx1 | hx1
      · obtain ⟨_, h2, _⟩ := hw x (List.mem_cons_of_mem r hx1)
        exact lt_of_lt_of_le hi.2 h2
      · obtain ⟨_, h2, _, _, _⟩ := hprops x hx1
        exact lt_of_lt_of_le hi.2 (le_trans h2 hrw.2.1)
    have htb : target < sels.length := lt_of_lt_of_le htlt hrw.2.1
    rw [List.mem_append, List.mem_singleton]
    push_neg
    constructor
    · rcases List.mem_append.mp hx with hx1 | hx1
      · exact hkeys x (List.mem_cons_of_mem r hx1) i hi
      · exact hkeys r (List.mem_cons_self r q0) i (hsub x hx1 i hi)
    · have hne : i ≠ target := by
        rcases List.mem_append.mp hx with hx1 | hx1
        · intro hit
          subst hit
          exact (List.pairwise_cons.mp hpair).1 x hx1 i ⟨hts, htlt⟩ hi
        · intro hit
          subst hit
          exact (hprops x hx1).2.2.2.1 hi
      exact addrAt_inj sels hnd i target hib htb hne

theorem selectLoopV1_spec (sels : List Candidate) (stream : ℕ → ℕ) (gap ts base : ℤ)
    (hnd : (sels.map Candidate.address).Nodup) :
    ∀ (fuel : ℕ) (q : List SelRange) (count : ℕ) (score : ℤ) (idx : ℕ)
      (acc res : List (ℕ × VoteResult)),
      QInv sels q (acc.map Prod.fst) →
      accInv acc base gap →
      count = acc.length + 1 →
      count ≤ MaxMiner + 1 →
      score + ts = base - (acc.length : ℤ) * gap →
      selectLoopV1 sels stream gap ts fuel q count score idx acc = some res →
      accInv res base gap ∧ res.length ≤ MaxMiner := by
  intro fuel
  induction fuel with
  | zero =>
    intro q count score idx acc res _ _ _ _ _ heq
    exact Option.noConfusion heq
  | succ fuel ih =>
    intro q count score idx acc res hq hinv hcount hcmax hscore heq
    rw [selectLoopV1.eq_def] at heq
    simp only [] at heq
    cases q with
    | nil =>
      simp only [Option.some.injEq] at heq
      subst heq
      exact ⟨hinv, by omega⟩
    | cons r q0 =>
      simp only [] at heq
      by_cases hm : MaxMiner < count
      · rw [if_pos hm] at heq
        simp only [Option.some.injEq] at heq
        subst heq
        exact ⟨hinv, by omega⟩
      · rw [if_neg hm] at heq
        rcases hr : rangeSearch sels q0 r stream idx with _ | tqi
        · rw [hr] at heq
          exact Option.noConfusion heq
        obtain ⟨target, q2, idx2⟩ := tqi
        rw [hr] at heq
        simp only [] at heq
        rcases hgc : sels.get? target with _ | c
        · rw [hgc] at heq
          exact Option.noConfusion heq
        rw [hgc] at heq
        simp only [] at heq
        have hrw := hq.1 r (List.mem_cons_self r q0)
        obtain ⟨hts2, htlt, ext, hq2, hprops, hpw⟩ :=
          rangeSearch_found sels q0 r stream idx hrw.1 hrw.2.2 target q2 idx2 hr
        have haddr : addrAt sels target = c.address := by
          unfold addrAt
          rw [hgc]
          rfl
        have hfreshk : c.address ∉ acc.map Prod.fst := by
          rw [← haddr]
          exact hq.2.2 r (List.mem_cons_self r q0) target ⟨hts2, htlt⟩
        have hput : putResult acc c.address ⟨score + ts, count⟩ =
            acc ++ [(c.address, (⟨score + ts, count⟩ : VoteResult))] := by
          apply putResult_fresh
          intro p hp hpc
          exact hfreshk (hpc ▸ List.mem_map_of_mem Prod.fst hp)
        rw [hput] at heq
        have hinv2 : accInv (acc ++ [(c.address, (⟨score + ts, count⟩ : VoteResult))]) base gap := by
          refine accInv_append acc base gap c.address ⟨score + ts, count⟩ hinv ?_ ?_ hfreshk
          · exact hcount
          · exact hscore
        have hq3 : QInv sels q2
            ((acc ++ [(c.address, (⟨score + ts, count⟩ : VoteResult))]).map Prod.fst) := by
          rw [List.map_append]
          simp only [List.map_cons, List.map_nil]
          rw [hq2, ← haddr]
          exact QInv_step sels r q0 (acc.map Prod.fst) target ext hnd hq hts2 htlt hprops hpw
        refine ih q2 (count + 1) (score - gap) idx2
          (acc ++ [(c.address, (⟨score + ts, count⟩ : VoteResult))]) res hq3 hinv2 ?_ (by omega) ?_ heq
        · rw [List.length_append]
          simp only [List.length_cons, List.length_nil]
          omega
        · rw [List.length_append]
          simp only [List.length_cons, List.length_nil]
          push_cast
          linarith [hscore]

theorem selectBlockCreator_shape (stream : ℕ → ℕ) (sels : List Candidate) (total : ℕ)
    (ts : ℤ) (res : List (ℕ × VoteResult))
    (hnd : (sels.map Candidate.address).Nodup)
    (hvals : valsOk sels 0) (htotal : total = (sels.map Candidate.point).sum)
    (heq : selectBlockCreator stream sels total ts = some res) :
    accInv res (maxElectScore + ts) ((maxElectScore - minElectScore) / (sels.length : ℤ)) ∧
    res.length ≤ MaxMiner := by
  unfold selectBlockCreator at heq
  by_cases h0 : sels.length = 0
  · rw [if_pos h0] at heq
    exact Option.noConfusion heq
  · rw [if_neg h0] at heq
    have hne : sels ≠ [] := fun hc => h0 (by rw [hc]; rfl)
    refine selectLoopV1_spec sels stream _ ts (maxElectScore + ts) hnd (MaxMiner + 1)
      [⟨0, total, 0, sels.length⟩] 1 maxElectScore 0 [] res ?_ ?_ rfl (by omega) ?_ heq
    · refine ⟨?_, List.pairwise_singleton _ _, ?_⟩
      · intro r hr
        have hr2 := List.mem_singleton.mp hr
        subst hr2
        refine ⟨Nat.pos_of_ne_zero h0, le_refl _, ?_⟩
        intro _
        rw [htotal, valsOk_last sels hvals hne]
      · intro r hr i _
        simp
    · exact ⟨rfl, fun p hp => absurd hp (List.not_mem_nil p), List.nodup_nil⟩
    · simp

theorem accInv_scores_mono (acc : List (ℕ × VoteResult)) (base gap : ℤ)
    (hinv : accInv acc base gap) (hgap : 0 ≤ gap) :
    ∀ p ∈ acc, ∀ w ∈ acc, p.2.rank < w.2.rank → w.2.score ≤ p.2.score := by
  intro p hp w hw hr
  rw [hinv.2.1 p hp, hinv.2.1 w hw]
  have hle : ((p.2.rank : ℤ) - 1) * gap ≤ ((w.2.rank : ℤ) - 1) * gap := by
    apply mul_le_mul_of_nonneg_right _ hgap
    have : (p.2.rank : ℤ) < (w.2.rank : ℤ) := by exact_mod_cast hr
    linarith
  linarith

/-- C6 (amended): elector output shape.  For the pre-BIP3
`selectBlockCreator`, every successful run assigns nonincreasing scores
along increasing ranks, at most one `VoteResult` per address, ranks exactly
`1..k` in insertion order, and `k ≤ MaxMiner`.  For the BIP3
`selectBIP3BlockCreator`, a run under its preconditions succeeds with the
same score/rank/uniqueness shape, but `k` equals the full candidate count:
the BIP3 loop has no `MaxMiner` cap, so `k` may exceed `MaxMiner`. -/
theorem selection_shape :
    (∀ (stream : ℕ → ℕ) (sels : List Candidate) (total : ℕ) (ts : ℤ)
        (res : List (ℕ × VoteResult)),
        (sels.map Candidate.address).Nodup → valsOk sels 0 →
        total = (sels.map Candidate.point).sum →
        selectBlockCreator stream sels total ts = some res →
        (∀ p ∈ res, ∀ w ∈ res, p.2.rank < w.2.rank → w.2.score ≤ p.2.score) ∧
        (res.map Prod.fst).Nodup ∧
        res.map (fun p => p.2.rank) = List.range' 1 res.length ∧
        res.length ≤ MaxMiner) ∧
    (∀ (stream : ℕ → ℕ) (sels : List Candidate) (total : ℕ),
        (sels.map Candidate.address).Nodup → valsOk sels 0 →
        (∀ c ∈ sels, 0 < c.point) →
        total = (sels.map Candidate.point).sum → sels ≠ [] →
        ∃ res, selectBIP3BlockCreator stream sels total = some res ∧
          (∀ p ∈ res, ∀ w ∈ res, p.2.rank < w.2.rank → w.2.score ≤ p.2.score) ∧
          (res.map Prod.fst).Nodup ∧
          res.map (fun p => p.2.rank) = List.range' 1 res.length ∧
          res.length = sels.length) := by
  have hgap : ∀ sels : List Candidate,
      0 ≤ (maxElectScore - minElectScore) / (sels.length : ℤ) := by
    intro sels
    apply Int.ediv_nonneg
    · norm_num [maxElectScore, minElectScore]
    · exact Int.natCast_nonneg _
  constructor
  · intro stream sels total ts res hnd hvals htotal heq
    obtain ⟨hinv, hlen⟩ := selectBlockCreator_shape stream sels total ts res hnd hvals htotal heq
    exact ⟨accInv_scores_mono res _ _ hinv (hgap sels), hinv.2.2, hinv.1, hlen⟩
  · intro stream sels total hnd hvals hpts htotal hne
    obtain ⟨res, hres, hinv, hlen, _⟩ :=
      selectBIP3_complete stream sels total hvals hpts htotal hnd hne
    exact ⟨res, hres, accInv_scores_mono res _ _ hinv (hgap sels), hinv.2.2, hinv.1, hlen⟩

/-- Witness for `selection_shape` on a single-candidate pre-BIP3 run. -/
theorem selection_shape_witness :
    (([⟨7, 5, 5⟩] : List Candidate).map Candidate.address).Nodup ∧
    valsOk [⟨7, 5, 5⟩] 0 ∧
    (5 : ℕ) = (([⟨7, 5, 5⟩] : List Candidate).map Candidate.point).sum ∧
    selectBlockCreator (fun _ => 0) [⟨7, 5, 5⟩] 5 3 =
      some [(7, (⟨5000003, 1⟩ : VoteResult))] ∧
    ((∀ p ∈ [(7, (⟨5000003, 1⟩ : VoteResult))], ∀ w ∈ [(7, (⟨5000003, 1⟩ : VoteResult))],
        p.2.rank < w.2.rank → w.2.score ≤ p.2.score) ∧
      ([(7, (⟨5000003, 1⟩ : VoteResult))].map Prod.fst).Nodup ∧
      [(7, (⟨5000003, 1⟩ : VoteResult))].map (fun p => p.2.rank) =
        List.range' 1 [(7, (⟨5000003, 1⟩ : VoteResult))].length ∧
      [(7, (⟨5000003, 1⟩ : VoteResult))].length ≤ MaxMiner) :=
  ⟨by decide, ⟨rfl, trivial⟩, by decide, rfl,
    selection_shape.1 (fun _ => 0) [⟨7, 5, 5⟩] 5 3 [(7, ⟨5000003, 1⟩)]
      (by decide) ⟨rfl, trivial⟩ (by decide) rfl⟩
